import Mathlib

/-!
# Verification of the Chinese text-checker pipeline

Shallow embedding of the diagnostic pipeline of the repository
(`app.py` plus the `checker/` modules) and proofs of the specified
properties.  Text is modelled as `List Char` (the Unicode codepoint
sequence, matching Python's `str` indexing).  Python slices `s[a:b]`
(which clamp out-of-range bounds) are modelled by `pySlice`.
Floating-point confidences are modelled as exact rationals; the
program only ever stores and copies these literals, never computes
with them.
-/

/-- The codepoint sequence of a string literal (Python `str` ↔ `List Char`). -/
def cs (s : String) : List Char := s.data

/-- Python slice `t[a:b]` for `0 ≤ a, b` (out-of-range bounds clamp). -/
def pySlice (t : List Char) (a b : Nat) : List Char := (t.drop a).take (b - a)

/-- Python whitespace (the set matched by `str.isspace`, by `str.strip()`
with no argument, and by `re`'s `\s` on `str` patterns). -/
def isPySpace (c : Char) : Bool :=
  let n := c.toNat
  (0x09 ≤ n ∧ n ≤ 0x0d) ∨ (0x1c ≤ n ∧ n ≤ 0x1f) ∨ n = 0x20 ∨ n = 0x85 ∨
  n = 0xa0 ∨ n = 0x1680 ∨ (0x2000 ≤ n ∧ n ≤ 0x200a) ∨ n = 0x2028 ∨
  n = 0x2029 ∨ n = 0x202f ∨ n = 0x205f ∨ n = 0x3000

/-- The character class `[一-鿿]` used throughout `rules.py`. -/
def isCJK (c : Char) : Bool := 0x4e00 ≤ c.toNat ∧ c.toNat ≤ 0x9fff

/-- One issue record, the common output shape of all engines.  Python's
dict key `end` is spelled `endp` (`end` is a Lean keyword). -/
structure Issue where
  type : String
  rule_id : String
  begin : Nat
  endp : Nat
  hit_text : List Char
  suggestions : List (List Char)
  evidence : String
  confidence : ℚ
  context_left : List Char
  context_right : List Char
  deriving DecidableEq, Repr

namespace Rules

/-- `rules._make_issue`: issue constructor with the two context slices
`text[max(0, begin-8):begin]` and `text[end:end+8]` (Nat subtraction
realises the `max(0, ...)`). -/
def make_issue (rule_id : String) (b e : Nat) (text hit : List Char)
    (evidence : String) (suggestions : List (List Char)) (confidence : ℚ) : Issue :=
  { type := "rule", rule_id := rule_id, begin := b, endp := e, hit_text := hit,
    suggestions := suggestions, evidence := evidence, confidence := confidence,
    context_left := pySlice text (b - 8) b, context_right := pySlice text e (e + 8) }

/-- Maximal runs of `isPySpace` characters, as half-open intervals, in
left-to-right order.  `i` is the position of the head of the remaining
list; the accumulator holds the start and length of the run currently
being read. -/
def spaceRunsAux : Nat → Option (Nat × Nat) → List Char → List (Nat × Nat)
  | _, none, [] => []
  | _, some (s, n), [] => [(s, s + n)]
  | i, none, c :: rest =>
    if isPySpace c then spaceRunsAux (i + 1) (some (i, 1)) rest
    else spaceRunsAux (i + 1) none rest
  | i, some (s, n), c :: rest =>
    if isPySpace c then spaceRunsAux (i + 1) (some (s, n + 1)) rest
    else (s, s + n) :: spaceRunsAux (i + 1) none rest

def spaceRuns (t : List Char) : List (Nat × Nat) := spaceRunsAux 0 none t

/-- Check 1 of `run_rule_checks`: `re.finditer(r'[　\s]{2,}', text)`.
The class `[　\s]` equals the Python whitespace set (`　` is
itself whitespace), and the greedy, non-overlapping scan matches exactly
the maximal whitespace runs of length ≥ 2. -/
def multiSpaceIssues (t : List Char) : List Issue :=
  ((spaceRuns t).filter fun r => 2 ≤ r.2 - r.1).map fun r =>
    make_issue "multi_space" r.1 r.2 t (pySlice t r.1 r.2) "连续空格" [cs "删除多余空格"] 0.85

/-- The fixed punctuation set `，。；：！？、` of check 2. -/
def cnPunct : List Char := ['，', '。', '；', '：', '！', '？', '、']

/-- Check 2: `re.finditer(r'\s+(?=[，。；：！？、])', text)`.  A greedy
whitespace run with a punctuation lookahead matches exactly the maximal
whitespace runs whose following character is in the set (no shorter
match is possible: every character before the run's end is whitespace,
not punctuation). -/
def spaceBeforePunctIssues (t : List Char) : List Issue :=
  ((spaceRuns t).filter fun r =>
      match t[r.2]? with
      | some c => c ∈ cnPunct
      | none => false).map fun r =>
    make_issue "space_before_cn_punct" r.1 r.2 t (pySlice t r.1 r.2) "中文标点前空格"
      [cs "删除多余空格"] 0.8

/-- Maximal runs of one repeated character: `(char, start, length)`. -/
def identRunsAux : Nat → Option (Char × Nat × Nat) → List Char → List (Char × Nat × Nat)
  | _, none, [] => []
  | _, some r, [] => [r]
  | i, none, c :: rest => identRunsAux (i + 1) (some (c, i, 1)) rest
  | i, some (d, s, n), c :: rest =>
    if c = d then identRunsAux (i + 1) (some (d, s, n + 1)) rest
    else (d, s, n) :: identRunsAux (i + 1) (some (c, i, 1)) rest

def identRuns (t : List Char) : List (Char × Nat × Nat) := identRunsAux 0 none t

/-- Check 3: `re.finditer(r'([一-鿿])\1{1,}', text)`: maximal
runs of an identical CJK character of length ≥ 2 (the greedy
non-overlapping scan covers each whole run). -/
def repeatCharIssues (t : List Char) : List Issue :=
  ((identRuns t).filter fun r => isCJK r.1 ∧ 2 ≤ r.2.2).map fun r =>
    make_issue "repeat_char" r.2.1 (r.2.1 + r.2.2) t (pySlice t r.2.1 (r.2.1 + r.2.2))
      "连续重复汉字" [cs "删除重复字或合并为合适词"] 0.7

/-- The nine opener → expected-closer pairs of check 4 (`pairs` in
`rules.py`). -/
def pairsOf : Char → Option Char
  | '(' => some ')'
  | '（' => some '）'
  | '[' => some ']'
  | '【' => some '】'
  | '《' => some '》'
  | '「' => some '」'
  | '『' => some '』'
  | '“' => some '”'
  | '‘' => some '’'
  | _ => none

/-- The closers (`pairs.values()`). -/
def closers : List Char := [')', '）', ']', '】', '》', '」', '』', '”', '’']

/-- The bracket scan of check 4.  The stack is a cons-list with the top
at the head (Python appends/pops at the right end; the final loop over
the leftover stack runs bottom-to-top, i.e. over the reverse of this
list).  Returns the leftover stack and the `unpaired_bracket` issues in
scan order. -/
def bracketAux (t : List Char) : Nat → List (Char × Nat) → List Char →
    List (Char × Nat) × List Issue
  | _, stack, [] => (stack, [])
  | i, stack, c :: rest =>
    if (pairsOf c).isSome then bracketAux t (i + 1) ((c, i) :: stack) rest
    else if c ∈ closers then
      match stack with
      | (o, j) :: stack' =>
        if pairsOf o = some c then bracketAux t (i + 1) stack' rest
        else
          let r := bracketAux t (i + 1) ((o, j) :: stack') rest
          (r.1, make_issue "unpaired_bracket" i (i + 1) t [c] "括号/引号不匹配"
            [cs "检查并匹配对应的左侧符号"] 0.6 :: r.2)
      | [] =>
        let r := bracketAux t (i + 1) [] rest
        (r.1, make_issue "unpaired_bracket" i (i + 1) t [c] "括号/引号不匹配"
          [cs "检查并匹配对应的左侧符号"] 0.6 :: r.2)
    else bracketAux t (i + 1) stack rest

/-- Check 4 in full: the unpaired issues from the scan, followed by one
`unclosed_bracket` issue per leftover stack entry, bottom-to-top. -/
def bracketIssues (t : List Char) : List Issue :=
  let r := bracketAux t 0 [] t
  r.2 ++ r.1.reverse.map fun p =>
    make_issue "unclosed_bracket" p.2 (p.2 + 1) t [p.1] "括号/引号未闭合"
      [cs "补全对应的右侧符号"] 0.6

/-- The scan shared by the three 的/地/得 heuristics of check 5:
`re.finditer(r'(?:[一-鿿]{1,2})target([一-鿿])', text)`,
returning `m.start(1) - 1` (the position of `target`) for each match.
The greedy `{1,2}` prefers two preceding CJK characters and backtracks
to one; on a match the scan resumes at the match end. -/
def deScanAux (target : Char) : Nat → List Char → List Nat
  | i, c1 :: c2 :: c3 :: c4 :: rest =>
    if isCJK c1 ∧ isCJK c2 ∧ c3 = target ∧ isCJK c4 then
      (i + 2) :: deScanAux target (i + 4) rest
    else if isCJK c1 ∧ c2 = target ∧ isCJK c3 then
      (i + 1) :: deScanAux target (i + 3) (c4 :: rest)
    else deScanAux target (i + 1) (c2 :: c3 :: c4 :: rest)
  | i, [c1, c2, c3] =>
    if isCJK c1 ∧ c2 = target ∧ isCJK c3 then [i + 1] else []
  | _, _ => []

/-- One 的/地/得 heuristic: an issue of width 1 at each reported
position, with the fixed hit character. -/
def deIssues (t : List Char) (target : Char) (rule_id : String) (evidence : String)
    (suggestions : List (List Char)) (confidence : ℚ) : List Issue :=
  (deScanAux target 0 t).map fun j =>
    make_issue rule_id j (j + 1) t [target] evidence suggestions confidence

/-- `rules.run_rule_checks`: the five checks in source order (the empty
text short-circuits to no issues). -/
def run_rule_checks (t : List Char) : List Issue :=
  if t = [] then []
  else
    multiSpaceIssues t ++ spaceBeforePunctIssues t ++ repeatCharIssues t ++
    bracketIssues t ++
    deIssues t '的' "de_maybe_di" "可能应为“地”" [cs "将“的”改为“地”"] 0.55 ++
    deIssues t '地' "di_maybe_de" "可能应为“的”" [cs "将“地”改为“的”"] 0.55 ++
    deIssues t '得' "dei_maybe_de" "可能应为“地/的”" [cs "根据上下文调整“得”的用法"] 0.5

end Rules

namespace Lexicon

/-- `lexicon._make_issue` (type `"lex"`). -/
def make_issue (rule_id : String) (b e : Nat) (text hit : List Char)
    (evidence : String) (suggestions : List (List Char)) (confidence : ℚ) : Issue :=
  { type := "lex", rule_id := rule_id, begin := b, endp := e, hit_text := hit,
    suggestions := suggestions, evidence := evidence, confidence := confidence,
    context_left := pySlice text (b - 8) b, context_right := pySlice text e (e + 8) }

/-- The built-in default confusion table `_DEFAULT_CONFUSION`, as the
lookup function `ch ↦ CONFUSION.get(ch, [])`.  The table (possibly
overridden key-by-key from `data/confusion.yml`, a mapping of single
characters to lists of alternative characters) is modelled throughout
as an arbitrary function `Char → List Char`; a key absent from the dict
and a key mapped to the empty list are observationally identical in the
source (both produce no suggestions), so the function model is faithful. -/
def defaultConfusion : Char → List Char
  | '在' => ['再']
  | '再' => ['在']
  | '形' => ['型']
  | '型' => ['形']
  | '号' => ['好']
  | '好' => ['号']
  | '拟' => ['你', '泥']
  | '你' => ['拟', '倪']
  | '泥' => ['你']
  | '已' => ['以']
  | '以' => ['已']
  | '未' => ['末']
  | '末' => ['未']
  | '经' => ['竟']
  | '竟' => ['经']
  | '因' => ['应']
  | '应' => ['因']
  | '期' => ['其']
  | '其' => ['期']
  | '与' => ['及', '和']
  | '及' => ['与']
  | '和' => ['与']
  | '到' => ['倒']
  | '倒' => ['到']
  | _ => []

/-- The built-in fallback `VALID_WORDS` set (used when
`data/dict_core.txt` is absent); the set is modelled as a list with
membership. -/
def defaultValidWords : List (List Char) :=
  [cs "你好", cs "您好", cs "问好", cs "信号", cs "编号", cs "账号", cs "友好",
   cs "形象", cs "效果"]

/-- Codepoint-lexicographic strict order on strings, Python's `<` on
`str`. -/
def lexLt : List Char → List Char → Bool
  | [], [] => false
  | [], _ :: _ => true
  | _ :: _, [] => false
  | a :: as, b :: bs => if a = b then lexLt as bs else decide (a.toNat < b.toNat)

def insertLex (x : List Char) : List (List Char) → List (List Char)
  | [] => [x]
  | y :: l => if lexLt y x then y :: insertLex x l else x :: y :: l

def sortLex : List (List Char) → List (List Char)
  | [] => []
  | x :: l => insertLex x (sortLex l)

/-- Python `sorted(set(xs))` for strings: the sorted list of the
distinct elements (set iteration order is irrelevant after sorting;
sorting the first-occurrence dedup yields exactly that list). -/
def sortedDedup (xs : List (List Char)) : List (List Char) := sortLex xs.dedup

/-- The single-character confusion scan of `run_lex_checks`: for each
position, the key's confusion list minus the character itself; an issue
iff that list is non-empty. -/
def singleIssues (conf : Char → List Char) (t : List Char) : List Issue :=
  t.enum.filterMap fun p =>
    let suggestions := (conf p.2).filter fun c => c ≠ p.2
    if suggestions = [] then none
    else some (make_issue "confusion_char" p.1 (p.1 + 1) t [p.2] "可能写错字"
      (suggestions.map fun c => [c]) 0.65)

/-- The candidate list collected for the window `[a, b]`: position 0
alternatives first, then position 1, in table order (the inner loops of
the bigram scan). -/
def bigramCands (conf : Char → List Char) (valid : List (List Char))
    (a b : Char) : List (List Char) :=
  ((conf a).filterMap fun alt =>
    if alt = a then none
    else if [alt, b] ≠ [a, b] ∧ [alt, b] ∈ valid then some [alt, b] else none) ++
  ((conf b).filterMap fun alt =>
    if alt = b then none
    else if [a, alt] ≠ [a, b] ∧ [a, alt] ∈ valid then some [a, alt] else none)

/-- The bigram smart-suggestion scan: one window per `i < length - 1`,
an issue iff some candidate was collected, suggestions
`sorted(set(candidates))`. -/
def bigramIssues (conf : Char → List Char) (valid : List (List Char))
    (t : List Char) : List Issue :=
  (List.range (t.length - 1)).filterMap fun i =>
    match pySlice t i (i + 2) with
    | [a, b] =>
      let smart_sug := bigramCands conf valid a b
      if smart_sug = [] then none
      else some (make_issue "confusion_bigram_suggested" i (i + 2) t [a, b]
        "替换后构成常用二字词" (sortedDedup smart_sug) 0.72)
    | _ => none

/-- `lexicon.run_lex_checks`: the single-character scan followed by the
bigram scan. -/
def run_lex_checks (conf : Char → List Char) (valid : List (List Char))
    (t : List Char) : List Issue :=
  if t = [] then [] else singleIssues conf t ++ bigramIssues conf valid t

end Lexicon

namespace Terms

/-- Python `text.find(pat, start)` (as an `Option`): the least
`i ≥ start` with `text[i:i+len(pat)] == pat`, scanning the candidate
positions `start, …, len(text)`. -/
def strFind (t pat : List Char) (start : Nat) : Option Nat :=
  (List.range' start (t.length + 1 - start)).find? fun i =>
    decide ((t.drop i).take pat.length = pat)

/-- `pat` occurs in `t` at position `i`. -/
def occAt (t pat : List Char) (i : Nat) : Prop := (t.drop i).take pat.length = pat

instance (t pat : List Char) (i : Nat) : Decidable (occAt t pat i) := by
  unfold occAt; infer_instance

theorem strFind_some (t pat : List Char) (start i : Nat)
    (h : strFind t pat start = some i) :
    start ≤ i ∧ i + pat.length ≤ t.length ∧ occAt t pat i := by
  unfold strFind at h
  rcases List.find?_eq_some.mp h with ⟨hp, as, bs, hsplit, _⟩
  have hmem : i ∈ List.range' start (t.length + 1 - start) := by
    rw [hsplit]; exact List.mem_append_right _ (List.mem_cons_self _ _)
  rcases List.mem_range'.mp hmem with ⟨k, hk, rfl⟩
  have hocc : (t.drop (start + 1 * k)).take pat.length = pat := by
    exact_mod_cast of_decide_eq_true hp
  have hlen : pat.length ≤ t.length - (start + 1 * k) := by
    have := congrArg List.length hocc
    simp [List.length_take, List.length_drop] at this
    omega
  refine ⟨by omega, by omega, hocc⟩

theorem strFind_mono (t pat : List Char) (start i : Nat)
    (h : strFind t pat start = some i) : start ≤ i :=
  (strFind_some t pat start i h).1

/-- The body of the term-scan loop, made structurally recursive on an
iteration budget. -/
def termScanPosF (t T : List Char) : Nat → Nat → List Nat
  | _, 0 => []
  | start, Nat.succ fuel =>
    match strFind t T start with
    | none => []
    | some idx => idx :: termScanPosF t T (idx + T.length) fuel

/-- The greedy non-overlapping scan of `run_term_checks`: the loop
`idx = text.find(term, start); …; start = idx + len(term)`, returning
the matched positions.  Each iteration advances `start` past a found
occurrence, so `len(text) + 1 - start` iterations always suffice
(`termScanPos_unfold` recovers the loop equation).  The source never
reaches this loop with an empty term (`load_terms` keeps only truthy
`term` strings; on an empty term the Python loop would not terminate),
so the empty case returns no positions. -/
def termScanPos (t T : List Char) (start : Nat) : List Nat :=
  if T.length = 0 then [] else termScanPosF t T start (t.length + 1 - start)

/-- One configured banned-term entry (`load_terms` output shape). -/
structure TermEntry where
  term : List Char
  suggestions : List (List Char)
  hint : String
  confidence : ℚ
  deriving DecidableEq, Repr

/-- `terms.run_term_checks` over the configured entries. -/
def run_term_checks (terms : List TermEntry) (t : List Char) : List Issue :=
  if t = [] then []
  else if terms = [] then []
  else terms.flatMap fun item =>
    (termScanPos t item.term 0).map fun idx =>
      { type := "term", rule_id := "invalid_term", begin := idx,
        endp := idx + item.term.length, hit_text := item.term,
        suggestions := item.suggestions, evidence := item.hint,
        confidence := item.confidence,
        context_left := pySlice t (idx - 8) idx,
        context_right := pySlice t (idx + item.term.length) (idx + item.term.length + 8) }

end Terms

namespace Csc

/-- One `(orig, new, begin, end)` tuple from the external model's
`correct(text)` detail list.  The offsets are arbitrary integers as
returned by the collaborator. -/
structure CscDetail where
  old : List Char
  new : List Char
  begin : Int
  endp : Int
  deriving DecidableEq, Repr

/-- `csc.run_csc` applied to the model's detail list: a detail is kept
unless `begin < 0 or end <= begin or begin >= len(text)` (note: no
upper check on `end`), and the issue's `hit_text` is the clamping
Python slice `text[begin:end]`. -/
def run_csc (t : List Char) (details : List CscDetail) : List Issue :=
  if t = [] then []
  else details.filterMap fun d =>
    if d.begin < 0 ∨ d.endp ≤ d.begin ∨ (t.length : Int) ≤ d.begin then none
    else some
      { type := "csc", rule_id := "csc", begin := d.begin.toNat, endp := d.endp.toNat,
        hit_text := pySlice t d.begin.toNat d.endp.toNat,
        suggestions := [d.new], evidence := "拼写纠错模型建议", confidence := 0.9,
        context_left := pySlice t (d.begin.toNat - 8) d.begin.toNat,
        context_right := pySlice t d.endp.toNat (d.endp.toNat + 8) }

end Csc

namespace Patterns

/-- One compiled rule of `patterns.py`.  The compiled regular
expression (Python `re`, an external library) is abstracted by its
`finditer` span list `text ↦ [(m.start(), m.end()), …]`; `m.group()`
is the slice `text[m.start():m.end()]`. -/
structure RegexRule where
  rule_id : String
  hint : String
  suggest : List (List Char)
  confidence : ℚ
  finditer : List Char → List (Nat × Nat)

/-- `RegexRule.run`. -/
def RegexRule.run (r : RegexRule) (t : List Char) : List Issue :=
  (r.finditer t).map fun m =>
    { type := "pattern", rule_id := r.rule_id, begin := m.1, endp := m.2,
      hit_text := pySlice t m.1 m.2, suggestions := r.suggest,
      evidence := r.hint, confidence := r.confidence,
      context_left := pySlice t (m.1 - 8) m.1,
      context_right := pySlice t m.2 (m.2 + 8) }

/-- `patterns.run_pattern_checks`: every loaded rule applied
independently (note: no empty-text short-circuit in the source). -/
def run_pattern_checks (rules : List RegexRule) (t : List Char) : List Issue :=
  rules.flatMap fun r => r.run t

end Patterns

namespace PosPatterns

/-- `PosToken`. -/
structure PosToken where
  word : List Char
  tag : String
  begin : Nat
  endp : Nat

/-- One positional condition of a POS rule.  The optional full-string
regex (`re.fullmatch`, external) is abstracted as a predicate on the
token's surface form. -/
structure PosCond where
  word : Option (List Char)
  regex : Option (List Char → Bool)
  tag : Option String

/-- The per-token condition check of `PosRule.match` (word equality,
full-string regex, and `tok.tag.startswith(expected)` prefix match,
all conjoined). -/
def condOk (cond : PosCond) (tok : PosToken) : Bool :=
  (match cond.word with
   | some w => tok.word = w
   | none => true) &&
  (match cond.regex with
   | some rx => rx tok.word
   | none => true) &&
  (match cond.tag with
   | some expected => expected.isPrefixOf tok.tag
   | none => true)

structure PosRule where
  rule_id : String
  sequence : List PosCond
  hint : String
  suggest : List (List Char)
  confidence : ℚ

/-- `PosRule.match`: the sliding window over the token list.  Python's
`range(tok_count - seq_len + 1)` is empty when `seq_len > tok_count`
(the guard realises the negative range).  Context fields are filled in
later by `run_pos_checks`, as in the source. -/
def PosRule.matchList (r : PosRule) (tokens : List PosToken) : List Issue :=
  if r.sequence.length = 0 then []
  else if tokens.length < r.sequence.length then []
  else
    (List.range (tokens.length - r.sequence.length + 1)).filterMap fun i =>
      let window := (tokens.drop i).take r.sequence.length
      match window.head?, window.getLast? with
      | some t0, some tl =>
        if (r.sequence.zip window).all fun p => condOk p.1 p.2 then
          some { type := "pos", rule_id := r.rule_id, begin := t0.begin,
                 endp := tl.endp, hit_text := window.flatMap fun tok => tok.word,
                 suggestions := r.suggest, evidence := r.hint,
                 confidence := r.confidence, context_left := [], context_right := [] }
        else none
      | _, _ => none

/-- The offset-reconstruction loop of `run_pos_checks`: each token's
start is `text.find(word, offset)`, falling back to `offset` itself
when the surface form is not found; the next search resumes at the
token's end. -/
def buildTokens (t : List Char) : Nat → List (List Char × String) → List PosToken
  | _, [] => []
  | offset, (w, tg) :: rest =>
    let idx := (Terms.strFind t w offset).getD offset
    { word := w, tag := tg, begin := idx, endp := idx + w.length } ::
      buildTokens t (idx + w.length) rest

/-- `pos_patterns.run_pos_checks`: a no-op when the external
segmenter (`jieba.posseg`) is unavailable; otherwise tokenize,
reconstruct offsets, and run every rule, filling the context slices. -/
def run_pos_checks (tokenize : Option (List Char → List (List Char × String)))
    (rules : List PosRule) (t : List Char) : List Issue :=
  match tokenize with
  | none => []
  | some cut =>
    if t = [] then []
    else
      let tokens := buildTokens t 0 (cut t)
      rules.flatMap fun r =>
        (r.matchList tokens).map fun m =>
          { m with context_left := pySlice t (m.begin - 8) m.begin,
                   context_right := pySlice t m.endp (m.endp + 8) }

end PosPatterns

namespace App

/-- Python `str.strip()`: drop leading and trailing whitespace. -/
def pyStrip (t : List Char) : List Char :=
  ((t.dropWhile isPySpace).reverse.dropWhile isPySpace).reverse

/-- The default modes dict of `api_check` (used when `modes` is absent,
null, or empty — all falsy). -/
def defaultModes : List (String × Bool) :=
  [("rule", true), ("lex", true), ("pat", true), ("pos", true), ("csc", false)]

/-- `data.get('modes') or {…}`: the default is substituted exactly when
the value is missing/None (`none`) or an empty dict (`some []`). -/
def resolveModes : Option (List (String × Bool)) → List (String × Bool)
  | none => defaultModes
  | some m => if m = [] then defaultModes else m

/-- `modes.get(key)` coerced to its truthiness: a missing key is falsy
(the engine is treated as disabled). -/
def modeOn (m : List (String × Bool)) (k : String) : Bool :=
  (m.lookup k).getD false

/-- The shared read-only configuration and external collaborators of
one running process: confusion table, valid-word set, compiled pattern
and POS rules, the optional segmenter and spelling model, and the
banned-term list. -/
structure Config where
  conf : Char → List Char
  valid : List (List Char)
  patRules : List Patterns.RegexRule
  posRules : List PosPatterns.PosRule
  tokenize : Option (List Char → List (List Char × String))
  cscModel : Option (List Char → List Csc.CscDetail)
  terms : List Terms.TermEntry

/-- The concatenated engine outputs of `api_check`, in invocation
order: rule, lex, pat, pos, csc, then the unconditional term checks. -/
def engineIssues (cfg : Config) (text : List Char) (m : List (String × Bool)) :
    List Issue :=
  (if modeOn m "rule" then Rules.run_rule_checks text else []) ++
  (if modeOn m "lex" then Lexicon.run_lex_checks cfg.conf cfg.valid text else []) ++
  (if modeOn m "pat" then Patterns.run_pattern_checks cfg.patRules text else []) ++
  (if modeOn m "pos" then PosPatterns.run_pos_checks cfg.tokenize cfg.posRules text else []) ++
  (if modeOn m "csc" then
    (match cfg.cscModel with
     | none => []
     | some correct => Csc.run_csc text (correct text))
   else []) ++
  Terms.run_term_checks cfg.terms text

/-- Stable insertion by `begin` (an element goes after every existing
element with a key `<` its own and before the first with a key `≥`,
i.e. before nothing it ties with that came earlier). -/
def insertByBegin (x : Issue) : List Issue → List Issue
  | [] => [x]
  | y :: l => if y.begin < x.begin then y :: insertByBegin x l else x :: y :: l

/-- `issues.sort(key=lambda x: x.get('begin', 0))`: a stable sort by
`begin` (Python's sort is stable; a stable sort by one key is
extensionally unique, so stable insertion sort realises it). -/
def sortIssues : List Issue → List Issue
  | [] => []
  | x :: l => insertByBegin x (sortIssues l)

structure Summary where
  count : Nat
  byRule : Nat
  byLex : Nat
  byPattern : Nat
  byPos : Nat
  byCsc : Nat
  byTerm : Nat
  deriving DecidableEq, Repr

structure Response where
  issues : List Issue
  summary : Summary
  deriving DecidableEq, Repr

/-- `app.api_check` from the parsed request body onward: strip the
text, resolve the modes, run the enabled engines plus the term engine,
stable-sort by `begin`, and build the summary.  (The friendly list and
HTTP marshalling are out of scope.) -/
def api_check (cfg : Config) (textRaw : List Char)
    (modes : Option (List (String × Bool))) : Response :=
  let text := pyStrip textRaw
  let m := resolveModes modes
  let sorted := sortIssues (engineIssues cfg text m)
  { issues := sorted,
    summary :=
      { count := sorted.length,
        byRule := sorted.countP fun i => i.type = "rule",
        byLex := sorted.countP fun i => i.type = "lex",
        byPattern := sorted.countP fun i => i.type = "pattern",
        byPos := sorted.countP fun i => i.type = "pos",
        byCsc := sorted.countP fun i => i.type = "csc",
        byTerm := sorted.countP fun i => i.type = "term" } }

end App

/-! ## Generic helper lemmas -/

theorem pySlice_singleton {t : List Char} {k : Nat} {c : Char}
    (h : t[k]? = some c) : pySlice t k (k + 1) = [c] := by
  have hk : k < t.length := by
    by_contra hk
    simp [List.getElem?_eq_none (le_of_not_lt hk)] at h
  have hc : t[k] = c := by
    have := List.getElem?_eq_getElem hk
    rw [this] at h; exact Option.some.inj h
  rw [pySlice, List.drop_eq_getElem_cons hk, hc]
  simp

theorem pySlice_of_take {t u : List Char} {a n : Nat}
    (h : (t.drop a).take n = u) : pySlice t a (a + n) = u := by
  rw [pySlice, Nat.add_sub_cancel_left, h]

theorem pySlice_split {t u : List Char} {a b : Nat}
    (hd : t.drop a = u ++ t.drop (a + u.length)) (hb : a + u.length ≤ b) :
    pySlice t a b = u ++ pySlice t (a + u.length) b := by
  rw [pySlice, pySlice, hd, List.take_append_eq_append_take]
  congr 1
  · exact List.take_of_length_le (by omega)
  · congr 1; omega

theorem pySlice_length_le {t : List Char} {a b : Nat} :
    (pySlice t a b).length ≤ b - a := by
  rw [pySlice]
  exact le_trans (List.length_take_le _ _) (le_refl _)

namespace App

/-- The key order used by the aggregator's sort. -/
def beginLE (a b : Issue) : Prop := a.begin ≤ b.begin

theorem length_insertByBegin (x : Issue) (l : List Issue) :
    (insertByBegin x l).length = l.length + 1 := by
  induction l with
  | nil => rfl
  | cons y l ih =>
    rw [insertByBegin]
    by_cases h : y.begin < x.begin <;> simp [h, ih]

theorem length_sortIssues (l : List Issue) : (sortIssues l).length = l.length := by
  induction l with
  | nil => rfl
  | cons x l ih => rw [sortIssues, length_insertByBegin, ih]; rfl

theorem mem_insertByBegin {y x : Issue} {l : List Issue} :
    y ∈ insertByBegin x l ↔ y = x ∨ y ∈ l := by
  induction l with
  | nil => simp [insertByBegin]
  | cons z l ih =>
    rw [insertByBegin]
    by_cases h : z.begin < x.begin
    · simp only [if_pos h, List.mem_cons, ih]
      tauto
    · simp only [if_neg h, List.mem_cons]

theorem mem_sortIssues {y : Issue} {l : List Issue} :
    y ∈ sortIssues l ↔ y ∈ l := by
  induction l with
  | nil => simp [sortIssues]
  | cons x l ih =>
    rw [sortIssues, mem_insertByBegin, ih]
    simp

theorem countP_insertByBegin (p : Issue → Bool) (x : Issue) (l : List Issue) :
    (insertByBegin x l).countP p = (x :: l).countP p := by
  induction l with
  | nil => rfl
  | cons y l ih =>
    rw [insertByBegin]
    by_cases h : y.begin < x.begin
    · rw [if_pos h]
      rw [List.countP_cons, List.countP_cons, ih, List.countP_cons, List.countP_cons]
      omega
    · rw [if_neg h]

theorem countP_sortIssues (p : Issue → Bool) (l : List Issue) :
    (sortIssues l).countP p = l.countP p := by
  induction l with
  | nil => rfl
  | cons x l ih =>
    rw [sortIssues, countP_insertByBegin, List.countP_cons, List.countP_cons, ih]

theorem filter_insertByBegin_pos {b : Nat} {x : Issue} (l : List Issue)
    (hx : x.begin = b) :
    (insertByBegin x l).filter (fun i => i.begin = b) =
      x :: l.filter (fun i => i.begin = b) := by
  induction l with
  | nil => simp [insertByBegin, hx]
  | cons y l ih =>
    rw [insertByBegin]
    by_cases h : y.begin < x.begin
    · have hy : ¬ (y.begin = b) := by omega
      rw [if_pos h, List.filter_cons, List.filter_cons]
      simp only [hy, decide_eq_false, ih]
      simp [hy]
    · rw [if_neg h, List.filter_cons]
      simp [hx]

theorem filter_insertByBegin_neg {b : Nat} {x : Issue} (l : List Issue)
    (hx : ¬ x.begin = b) :
    (insertByBegin x l).filter (fun i => i.begin = b) =
      l.filter (fun i => i.begin = b) := by
  induction l with
  | nil => simp [insertByBegin, hx]
  | cons y l ih =>
    rw [insertByBegin]
    by_cases h : y.begin < x.begin
    · rw [if_pos h, List.filter_cons, List.filter_cons, ih]
    · rw [if_neg h, List.filter_cons, List.filter_cons]
      simp [hx]

theorem filter_sortIssues (b : Nat) (l : List Issue) :
    (sortIssues l).filter (fun i => i.begin = b) =
      l.filter (fun i => i.begin = b) := by
  induction l with
  | nil => rfl
  | cons x l ih =>
    rw [sortIssues]
    by_cases hx : x.begin = b
    · rw [filter_insertByBegin_pos _ hx, ih, List.filter_cons]
      simp [hx]
    · rw [filter_insertByBegin_neg _ hx, ih, List.filter_cons]
      simp [hx]

theorem sorted_insertByBegin {x : Issue} {l : List Issue}
    (h : List.Sorted beginLE l) : List.Sorted beginLE (insertByBegin x l) := by
  induction l with
  | nil => simp [insertByBegin, List.Sorted]
  | cons y l ih =>
    rw [insertByBegin]
    rcases List.sorted_cons.mp h with ⟨hy, hl⟩
    by_cases hc : y.begin < x.begin
    · rw [if_pos hc]
      refine List.sorted_cons.mpr ⟨?_, ih hl⟩
      intro z hz
      rcases mem_insertByBegin.mp hz with rfl | hz
      · exact le_of_lt hc
      · exact hy z hz
    · rw [if_neg hc]
      refine List.sorted_cons.mpr ⟨?_, h⟩
      intro z hz
      rcases List.mem_cons.mp hz with rfl | hz
      · exact le_of_not_lt hc
      · exact le_trans (le_of_not_lt hc) (hy z hz)

theorem sorted_sortIssues (l : List Issue) : List.Sorted beginLE (sortIssues l) := by
  induction l with
  | nil => simp [sortIssues, List.Sorted]
  | cons x l ih => exact sorted_insertByBegin ih

end App

namespace Rules

theorem spaceRunsAux_bounds :
    ∀ (l : List Char) (i : Nat) (st : Option (Nat × Nat)),
      (∀ s n, st = some (s, n) → s + n = i ∧ 1 ≤ n) →
      ∀ r ∈ spaceRunsAux i st l, r.1 < r.2 ∧ r.2 ≤ i + l.length := by
  intro l
  induction l with
  | nil =>
    intro i st hst r hr
    match st with
    | none => simp [spaceRunsAux] at hr
    | some (s, n) =>
      obtain ⟨h1, h2⟩ := hst s n rfl
      simp [spaceRunsAux] at hr
      subst hr
      simp
      omega
  | cons c rest ih =>
    intro i st hst r hr
    match st with
    | none =>
      rw [spaceRunsAux] at hr
      by_cases hc : isPySpace c
      · rw [if_pos hc] at hr
        have := ih (i + 1) (some (i, 1)) (by intro s n h; cases h; omega) r hr
        simpa [Nat.add_comm, Nat.add_assoc, Nat.add_left_comm] using this
      · rw [if_neg hc] at hr
        have := ih (i + 1) none (by intro s n h; cases h) r hr
        simpa [Nat.add_comm, Nat.add_assoc, Nat.add_left_comm] using this
    | some (s, n) =>
      obtain ⟨h1, h2⟩ := hst s n rfl
      rw [spaceRunsAux] at hr
      by_cases hc : isPySpace c
      · rw [if_pos hc] at hr
        have := ih (i + 1) (some (s, n + 1)) (by intro s' n' h; cases h; omega) r hr
        simpa [Nat.add_comm, Nat.add_assoc, Nat.add_left_comm] using this
      · rw [if_neg hc] at hr
        rcases List.mem_cons.mp hr with rfl | hr
        · simp; omega
        · have := ih (i + 1) none (by intro s' n' h; cases h) r hr
          simpa [Nat.add_comm, Nat.add_assoc, Nat.add_left_comm] using this

theorem spaceRuns_bounds (t : List Char) :
    ∀ r ∈ spaceRuns t, r.1 < r.2 ∧ r.2 ≤ t.length := by
  intro r hr
  have := spaceRunsAux_bounds t 0 none (by intro s n h; cases h) r hr
  simpa using this

theorem identRunsAux_bounds :
    ∀ (l : List Char) (i : Nat) (st : Option (Char × Nat × Nat)),
      (∀ c s n, st = some (c, s, n) → s + n = i ∧ 1 ≤ n) →
      ∀ r ∈ identRunsAux i st l, 1 ≤ r.2.2 ∧ r.2.1 + r.2.2 ≤ i + l.length := by
  intro l
  induction l with
  | nil =>
    intro i st hst r hr
    match st with
    | none => simp [identRunsAux] at hr
    | some (c, s, n) =>
      obtain ⟨h1, h2⟩ := hst c s n rfl
      simp [identRunsAux] at hr
      subst hr
      simp
      omega
  | cons c rest ih =>
    intro i st hst r hr
    match st with
    | none =>
      rw [identRunsAux] at hr
      have := ih (i + 1) (some (c, i, 1)) (by intro c' s n h; cases h; omega) r hr
      simpa [Nat.add_comm, Nat.add_assoc, Nat.add_left_comm] using this
    | some (d, s, n) =>
      obtain ⟨h1, h2⟩ := hst d s n rfl
      rw [identRunsAux] at hr
      by_cases hc : c = d
      · rw [if_pos hc] at hr
        have := ih (i + 1) (some (d, s, n + 1)) (by intro c' s' n' h; cases h; omega) r hr
        simpa [Nat.add_comm, Nat.add_assoc, Nat.add_left_comm] using this
      · rw [if_neg hc] at hr
        rcases List.mem_cons.mp hr with rfl | hr
        · simp; omega
        · have := ih (i + 1) (some (c, i, 1)) (by intro c' s' n' h; cases h; omega) r hr
          simpa [Nat.add_comm, Nat.add_assoc, Nat.add_left_comm] using this

theorem identRuns_bounds (t : List Char) :
    ∀ r ∈ identRuns t, 1 ≤ r.2.2 ∧ r.2.1 + r.2.2 ≤ t.length := by
  intro r hr
  have := identRunsAux_bounds t 0 none (by intro c s n h; cases h) r hr
  simpa using this

theorem bracketAux_spec (t : List Char) :
    ∀ (l : List Char) (i : Nat) (stack : List (Char × Nat)),
      t.drop i = l →
      (∀ p ∈ stack, t[p.2]? = some p.1) →
      (∀ p ∈ (bracketAux t i stack l).1, t[p.2]? = some p.1) ∧
      (∀ iss ∈ (bracketAux t i stack l).2, ∃ k c, t[k]? = some c ∧
        iss = make_issue "unpaired_bracket" k (k + 1) t [c] "括号/引号不匹配"
          [cs "检查并匹配对应的左侧符号"] 0.6) := by
  intro l
  induction l with
  | nil =>
    intro i stack _ hstack
    constructor
    · intro p hp; exact hstack p hp
    · intro iss hiss; simp [bracketAux] at hiss
  | cons c rest ih =>
    intro i stack hd hstack
    have hci : t[i]? = some c := by
      have h0 : (t.drop i)[0]? = t[i + 0]? := List.getElem?_drop t i 0
      rw [hd] at h0
      simpa using h0.symm
    have hrest : t.drop (i + 1) = rest := by
      have := List.drop_drop 1 i t
      rw [hd] at this
      simpa using this.symm
    have hpush : ∀ p ∈ (c, i) :: stack, t[p.2]? = some p.1 := by
      intro p hp
      rcases List.mem_cons.mp hp with rfl | hp
      · exact hci
      · exact hstack p hp
    rcases stack with _ | ⟨⟨o, j⟩, stack'⟩
    · rw [bracketAux]
      by_cases hop : (pairsOf c).isSome
      · rw [if_pos hop]
        exact ih (i + 1) [(c, i)] hrest hpush
      · rw [if_neg hop]
        by_cases hcl : c ∈ closers
        · rw [if_pos hcl]
          have := ih (i + 1) [] hrest hstack
          refine ⟨this.1, ?_⟩
          intro iss hiss
          rcases List.mem_cons.mp hiss with rfl | hiss
          · exact ⟨i, c, hci, rfl⟩
          · exact this.2 iss hiss
        · rw [if_neg hcl]
          exact ih (i + 1) [] hrest hstack
    · rw [bracketAux]
      by_cases hop : (pairsOf c).isSome
      · rw [if_pos hop]
        exact ih (i + 1) ((c, i) :: (o, j) :: stack') hrest hpush
      · rw [if_neg hop]
        by_cases hcl : c ∈ closers
        · rw [if_pos hcl]
          by_cases hm : pairsOf o = some c
          · rw [if_pos hm]
            exact ih (i + 1) stack' hrest (by
              intro p hp; exact hstack p (List.mem_cons_of_mem _ hp))
          · rw [if_neg hm]
            have := ih (i + 1) ((o, j) :: stack') hrest hstack
            refine ⟨this.1, ?_⟩
            intro iss hiss
            rcases List.mem_cons.mp hiss with rfl | hiss
            · exact ⟨i, c, hci, rfl⟩
            · exact this.2 iss hiss
        · rw [if_neg hcl]
          exact ih (i + 1) ((o, j) :: stack') hrest hstack

theorem deScanAux_spec (t : List Char) (target : Char) :
    ∀ (i : Nat) (l : List Char), t.drop i = l →
      ∀ j ∈ deScanAux target i l, t[j]? = some target ∧ j + 2 ≤ t.length := by
  intro i l
  induction i, l using deScanAux.induct target with
  | case1 i c1 c2 c3 c4 rest hcond ih =>
    intro hd j hj
    have hlen : rest.length + 1 + 1 + 1 + 1 = t.length - i := by
      have := congrArg List.length hd
      simpa [List.length_drop] using this.symm
    have hc3 : t[i + 2]? = some c3 := by
      have h0 : (t.drop i)[2]? = t[i + 2]? := List.getElem?_drop t i 2
      rw [hd] at h0
      simpa using h0.symm
    have hrest : t.drop (i + 4) = rest := by
      have := List.drop_drop 4 i t
      rw [hd] at this
      simpa using this.symm
    rw [deScanAux, if_pos hcond] at hj
    rcases List.mem_cons.mp hj with rfl | hj
    · exact ⟨by rw [hc3, hcond.2.2.1], by omega⟩
    · exact ih hrest j hj
  | case2 i c1 c2 c3 c4 rest hne hcond ih =>
    intro hd j hj
    have hlen : rest.length + 1 + 1 + 1 + 1 = t.length - i := by
      have := congrArg List.length hd
      simpa [List.length_drop] using this.symm
    have hc2 : t[i + 1]? = some c2 := by
      have h0 : (t.drop i)[1]? = t[i + 1]? := List.getElem?_drop t i 1
      rw [hd] at h0
      simpa using h0.symm
    have hrest : t.drop (i + 3) = c4 :: rest := by
      have := List.drop_drop 3 i t
      rw [hd] at this
      simpa using this.symm
    rw [deScanAux, if_neg hne, if_pos hcond] at hj
    rcases List.mem_cons.mp hj with rfl | hj
    · exact ⟨by rw [hc2, hcond.2.1], by omega⟩
    · exact ih hrest j hj
  | case3 i c1 c2 c3 c4 rest hne1 hne2 ih =>
    intro hd j hj
    have hrest : t.drop (i + 1) = c2 :: c3 :: c4 :: rest := by
      have := List.drop_drop 1 i t
      rw [hd] at this
      simpa using this.symm
    rw [deScanAux, if_neg hne1, if_neg hne2] at hj
    exact ih hrest j hj
  | case4 i c1 c2 c3 hcond =>
    intro hd j hj
    have hlen : 3 = t.length - i := by
      have := congrArg List.length hd
      simpa [List.length_drop] using this.symm
    have hc2 : t[i + 1]? = some c2 := by
      have h0 : (t.drop i)[1]? = t[i + 1]? := List.getElem?_drop t i 1
      rw [hd] at h0
      simpa using h0.symm
    rw [deScanAux, if_pos hcond] at hj
    rcases List.mem_singleton.mp hj with rfl
    exact ⟨by rw [hc2, hcond.2.1], by omega⟩
  | case5 i c1 c2 c3 hcond =>
    intro _ j hj
    rw [deScanAux, if_neg hcond] at hj
    simp at hj
  | case6 l i h1 h2 =>
    intro _ j hj
    rw [deScanAux.eq_def] at hj
    match l, h1, h2 with
    | [], _, _ => simp at hj
    | [c1], _, _ => simp at hj
    | [c1, c2], _, _ => simp at hj
    | c1 :: c2 :: c3 :: c4 :: rest, h1, _ => exact absurd rfl (h1 c1 c2 c3 c4 rest)
    | [c1, c2, c3], _, h2 => exact absurd rfl (h2 c1 c2 c3)

theorem multiSpaceIssues_bounds (t : List Char) :
    ∀ iss ∈ multiSpaceIssues t, iss.begin ≤ iss.endp ∧ iss.endp ≤ t.length ∧
      iss.hit_text = pySlice t iss.begin iss.endp ∧ iss.type = "rule" := by
  intro iss hiss
  rcases List.mem_map.mp hiss with ⟨r, hr, rfl⟩
  have hb := spaceRuns_bounds t r (List.mem_filter.mp hr).1
  exact ⟨by simp [make_issue]; omega, by simp [make_issue]; omega, rfl, rfl⟩

theorem spaceBeforePunctIssues_bounds (t : List Char) :
    ∀ iss ∈ spaceBeforePunctIssues t, iss.begin ≤ iss.endp ∧ iss.endp ≤ t.length ∧
      iss.hit_text = pySlice t iss.begin iss.endp ∧ iss.type = "rule" := by
  intro iss hiss
  rcases List.mem_map.mp hiss with ⟨r, hr, rfl⟩
  have hb := spaceRuns_bounds t r (List.mem_filter.mp hr).1
  exact ⟨by simp [make_issue]; omega, by simp [make_issue]; omega, rfl, rfl⟩

theorem repeatCharIssues_bounds (t : List Char) :
    ∀ iss ∈ repeatCharIssues t, iss.begin ≤ iss.endp ∧ iss.endp ≤ t.length ∧
      iss.hit_text = pySlice t iss.begin iss.endp ∧ iss.type = "rule" := by
  intro iss hiss
  rcases List.mem_map.mp hiss with ⟨r, hr, rfl⟩
  have hb := identRuns_bounds t r (List.mem_filter.mp hr).1
  exact ⟨by simp [make_issue], by simp [make_issue]; omega, rfl, rfl⟩

theorem bracketIssues_bounds (t : List Char) :
    ∀ iss ∈ bracketIssues t, iss.begin ≤ iss.endp ∧ iss.endp ≤ t.length ∧
      iss.hit_text = pySlice t iss.begin iss.endp ∧ iss.type = "rule" := by
  intro iss hiss
  have hspec := bracketAux_spec t t 0 [] (by simp) (by intro p hp; simp at hp)
  rw [bracketIssues] at hiss
  rcases List.mem_append.mp hiss with hiss | hiss
  · rcases hspec.2 iss hiss with ⟨k, c, hk, rfl⟩
    have hklen : k < t.length := by
      by_contra hge
      rw [List.getElem?_eq_none (le_of_not_lt hge)] at hk
      exact Option.noConfusion hk
    exact ⟨by simp [make_issue], by simp [make_issue]; omega,
      by simpa [make_issue] using (pySlice_singleton hk).symm, rfl⟩
  · rcases List.mem_map.mp hiss with ⟨p, hp, rfl⟩
    have hk := hspec.1 p (List.mem_reverse.mp hp)
    have hklen : p.2 < t.length := by
      by_contra hge
      rw [List.getElem?_eq_none (le_of_not_lt hge)] at hk
      exact Option.noConfusion hk
    exact ⟨by simp [make_issue], by simp [make_issue]; omega,
      by simpa [make_issue] using (pySlice_singleton hk).symm, rfl⟩

theorem deIssues_bounds (t : List Char) (target : Char) (rid ev : String)
    (sug : List (List Char)) (conf : ℚ) :
    ∀ iss ∈ deIssues t target rid ev sug conf,
      iss.begin ≤ iss.endp ∧ iss.endp ≤ t.length ∧
      iss.hit_text = pySlice t iss.begin iss.endp ∧ iss.type = "rule" := by
  intro iss hiss
  rcases List.mem_map.mp hiss with ⟨j, hj, rfl⟩
  have := deScanAux_spec t target 0 t (by simp) j hj
  exact ⟨by simp [make_issue], by simp [make_issue]; omega,
    by simpa [make_issue] using (pySlice_singleton this.1).symm, rfl⟩

theorem run_rule_checks_bounds (t : List Char) :
    ∀ iss ∈ run_rule_checks t, iss.begin ≤ iss.endp ∧ iss.endp ≤ t.length ∧
      iss.hit_text = pySlice t iss.begin iss.endp ∧ iss.type = "rule" := by
  intro iss hiss
  rw [run_rule_checks] at hiss
  by_cases ht : t = []
  · rw [if_pos ht] at hiss; simp at hiss
  · rw [if_neg ht] at hiss
    simp only [List.append_assoc, List.mem_append] at hiss
    rcases hiss with h | h | h | h | h | h | h
    · exact multiSpaceIssues_bounds t iss h
    · exact spaceBeforePunctIssues_bounds t iss h
    · exact repeatCharIssues_bounds t iss h
    · exact bracketIssues_bounds t iss h
    · exact deIssues_bounds t '的' _ _ _ _ iss h
    · exact deIssues_bounds t '地' _ _ _ _ iss h
    · exact deIssues_bounds t '得' _ _ _ _ iss h

end Rules

namespace Lexicon

theorem singleIssues_bounds (conf : Char → List Char) (t : List Char) :
    ∀ iss ∈ singleIssues conf t, iss.begin ≤ iss.endp ∧ iss.endp ≤ t.length ∧
      iss.hit_text = pySlice t iss.begin iss.endp ∧ iss.type = "lex" := by
  intro iss hiss
  rcases List.mem_filterMap.mp hiss with ⟨⟨idx, ch⟩, hmem, hf⟩
  have hidx : t[idx]? = some ch := by
    have := List.mem_enum_iff_getElem?.mp hmem
    simpa using this
  have hlt : idx < t.length := by
    by_contra hge
    rw [List.getElem?_eq_none (le_of_not_lt hge)] at hidx
    exact Option.noConfusion hidx
  simp only [] at hf
  by_cases hs : ((conf ch).filter fun c => c ≠ ch) = []
  · rw [if_pos hs] at hf; exact Option.noConfusion hf
  · rw [if_neg hs] at hf
    cases Option.some.inj hf
    exact ⟨by simp [make_issue], by simp [make_issue]; omega,
      by simpa [make_issue] using (pySlice_singleton hidx).symm, rfl⟩

theorem bigramIssues_bounds (conf : Char → List Char) (valid : List (List Char))
    (t : List Char) :
    ∀ iss ∈ bigramIssues conf valid t, iss.begin ≤ iss.endp ∧ iss.endp ≤ t.length ∧
      iss.hit_text = pySlice t iss.begin iss.endp ∧ iss.type = "lex" := by
  intro iss hiss
  rcases List.mem_filterMap.mp hiss with ⟨i, hmem, hf⟩
  have hi : i < t.length - 1 := List.mem_range.mp hmem
  simp only [] at hf
  split at hf
  · rename_i a b hw
    by_cases hc : bigramCands conf valid a b = []
    · rw [if_pos hc] at hf; exact Option.noConfusion hf
    · rw [if_neg hc] at hf
      cases Option.some.inj hf
      exact ⟨by simp [make_issue], by simp [make_issue]; omega,
        by simpa [make_issue] using hw.symm, rfl⟩
  · exact Option.noConfusion hf

theorem run_lex_checks_bounds (conf : Char → List Char) (valid : List (List Char))
    (t : List Char) :
    ∀ iss ∈ run_lex_checks conf valid t, iss.begin ≤ iss.endp ∧ iss.endp ≤ t.length ∧
      iss.hit_text = pySlice t iss.begin iss.endp ∧ iss.type = "lex" := by
  intro iss hiss
  rw [run_lex_checks] at hiss
  by_cases ht : t = []
  · rw [if_pos ht] at hiss; simp at hiss
  · rw [if_neg ht] at hiss
    rcases List.mem_append.mp hiss with h | h
    · exact singleIssues_bounds conf t iss h
    · exact bigramIssues_bounds conf valid t iss h

end Lexicon

namespace Terms

theorem strFind_none_of_gt (t T : List Char) (start : Nat)
    (h : t.length + 1 ≤ start) : strFind t T start = none := by
  rw [strFind]
  have : t.length + 1 - start = 0 := by omega
  rw [this]
  rfl

theorem termScanPosF_congr (t T : List Char) (hT : 1 ≤ T.length) :
    ∀ (fuel fuel' start : Nat), t.length + 1 - start ≤ fuel →
      t.length + 1 - start ≤ fuel' →
      termScanPosF t T start fuel = termScanPosF t T start fuel' := by
  intro fuel
  induction fuel with
  | zero =>
    intro fuel' start h _
    have hsf : strFind t T start = none := strFind_none_of_gt t T start (by omega)
    cases fuel' with
    | zero => rfl
    | succ fuel'' => rw [termScanPosF, termScanPosF, hsf]
  | succ fuel ih =>
    intro fuel' start h h'
    cases fuel' with
    | zero =>
      have hsf : strFind t T start = none := strFind_none_of_gt t T start (by omega)
      rw [termScanPosF, termScanPosF, hsf]
    | succ fuel'' =>
      rw [termScanPosF, termScanPosF]
      cases hsf : strFind t T start with
      | none => rfl
      | some idx =>
        obtain ⟨h1, h2, _⟩ := strFind_some t T start idx hsf
        simp only []
        rw [ih fuel'' (idx + T.length) (by omega) (by omega)]

/-- The loop equation of the term scan (the shape of the Python
`while True` loop). -/
theorem termScanPos_unfold (t T : List Char) (hT : 1 ≤ T.length) (start : Nat) :
    termScanPos t T start =
      match strFind t T start with
      | none => []
      | some idx => idx :: termScanPos t T (idx + T.length) := by
  rw [termScanPos, if_neg (by omega)]
  cases hlen : t.length + 1 - start with
  | zero =>
    have hsf : strFind t T start = none := strFind_none_of_gt t T start (by omega)
    rw [hsf]
    rfl
  | succ fuel =>
    rw [termScanPosF]
    cases hsf : strFind t T start with
    | none => rfl
    | some idx =>
      obtain ⟨h1, h2, _⟩ := strFind_some t T start idx hsf
      simp only []
      congr 1
      rw [termScanPos, if_neg (by omega)]
      exact termScanPosF_congr t T hT fuel (t.length + 1 - (idx + T.length))
        (idx + T.length) (by omega) (by omega)

theorem termScanPosF_spec (t T : List Char) :
    ∀ (fuel start : Nat), ∀ idx ∈ termScanPosF t T start fuel,
      start ≤ idx ∧ idx + T.length ≤ t.length ∧ occAt t T idx := by
  intro fuel
  induction fuel with
  | zero => intro start idx h; simp [termScanPosF] at h
  | succ fuel ih =>
    intro start idx h
    rw [termScanPosF] at h
    split at h
    · simp at h
    · rename_i idx0 hsf
      obtain ⟨h1, h2, h3⟩ := strFind_some t T start idx0 hsf
      rcases List.mem_cons.mp h with rfl | h
      · exact ⟨h1, h2, h3⟩
      · obtain ⟨g1, g2, g3⟩ := ih (idx0 + T.length) idx h
        exact ⟨by omega, g2, g3⟩

theorem termScanPos_spec (t T : List Char) :
    ∀ (start : Nat), ∀ idx ∈ termScanPos t T start,
      start ≤ idx ∧ idx + T.length ≤ t.length ∧ occAt t T idx := by
  intro start idx h
  rw [termScanPos] at h
  by_cases hT : T.length = 0
  · rw [if_pos hT] at h; simp at h
  · rw [if_neg hT] at h
    exact termScanPosF_spec t T _ start idx h

theorem run_term_checks_bounds (terms : List TermEntry) (t : List Char) :
    ∀ iss ∈ run_term_checks terms t, iss.begin ≤ iss.endp ∧ iss.endp ≤ t.length ∧
      iss.hit_text = pySlice t iss.begin iss.endp ∧ iss.type = "term" := by
  intro iss hiss
  rw [run_term_checks] at hiss
  by_cases ht : t = []
  · rw [if_pos ht] at hiss; simp at hiss
  · rw [if_neg ht] at hiss
    by_cases hterms : terms = []
    · rw [if_pos hterms] at hiss; simp at hiss
    · rw [if_neg hterms] at hiss
      rcases List.mem_flatMap.mp hiss with ⟨item, _, hin⟩
      rcases List.mem_map.mp hin with ⟨idx, hidx, rfl⟩
      obtain ⟨_, h2, h3⟩ := termScanPos_spec t item.term 0 idx hidx
      exact ⟨by simp, by simpa using h2, by simpa using (pySlice_of_take h3).symm, rfl⟩

end Terms

namespace Csc

theorem run_csc_bounds (t : List Char) (details : List CscDetail) :
    ∀ iss ∈ run_csc t details, iss.begin < t.length ∧ iss.begin < iss.endp ∧
      iss.hit_text = pySlice t iss.begin iss.endp ∧ iss.type = "csc" := by
  intro iss hiss
  rw [run_csc] at hiss
  by_cases ht : t = []
  · rw [if_pos ht] at hiss; simp at hiss
  · rw [if_neg ht] at hiss
    rcases List.mem_filterMap.mp hiss with ⟨d, _, hf⟩
    by_cases hc : d.begin < 0 ∨ d.endp ≤ d.begin ∨ (t.length : Int) ≤ d.begin
    · rw [if_pos hc] at hf; exact Option.noConfusion hf
    · rw [if_neg hc] at hf
      push_neg at hc
      obtain ⟨h0, hbe, hbl⟩ := hc
      cases Option.some.inj hf
      refine ⟨?_, ?_, rfl, rfl⟩
      · simp only []; omega
      · simp only []; omega

end Csc

namespace Patterns

theorem run_pattern_checks_bounds (rules : List RegexRule) (t : List Char)
    (hspans : ∀ r ∈ rules, ∀ m ∈ r.finditer t, m.1 ≤ m.2 ∧ m.2 ≤ t.length) :
    ∀ iss ∈ run_pattern_checks rules t, iss.begin ≤ iss.endp ∧ iss.endp ≤ t.length ∧
      iss.hit_text = pySlice t iss.begin iss.endp ∧ iss.type = "pattern" := by
  intro iss hiss
  rcases List.mem_flatMap.mp hiss with ⟨r, hr, hin⟩
  rcases List.mem_map.mp hin with ⟨m, hm, rfl⟩
  obtain ⟨h1, h2⟩ := hspans r hr m hm
  exact ⟨h1, h2, rfl, rfl⟩

end Patterns

namespace PosPatterns

/-- The token list produced by the offset-reconstruction loop when the
segmenter's surface forms concatenate to the text (the behaviour of a
real segmentation): consecutive exact offsets. -/
def exactTokens : Nat → List (List Char × String) → List PosToken
  | _, [] => []
  | offset, (w, tg) :: rest =>
    { word := w, tag := tg, begin := offset, endp := offset + w.length } ::
      exactTokens (offset + w.length) rest

theorem strFind_at_start (t w : List Char) (offset : Nat) (hoff : offset ≤ t.length)
    (hocc : (t.drop offset).take w.length = w) :
    Terms.strFind t w offset = some offset := by
  rw [Terms.strFind]
  have hc : t.length + 1 - offset = (t.length - offset) + 1 := by omega
  rw [hc, List.range'_succ]
  exact List.find?_cons_of_pos _ (by simpa using hocc)

theorem drop_append_facts {t w x : List Char} {offset : Nat}
    (hoff : offset ≤ t.length) (hd : t.drop offset = w ++ x) :
    (t.drop offset).take w.length = w ∧ t.drop (offset + w.length) = x ∧
    offset + w.length ≤ t.length := by
  refine ⟨by rw [hd]; exact List.take_left w x, ?_, ?_⟩
  · have h1 := List.drop_drop w.length offset t
    rw [hd, List.drop_left w x] at h1
    exact h1.symm
  · have := congrArg List.length hd
    simp [List.length_drop] at this
    omega

theorem buildTokens_eq_exact (t : List Char) :
    ∀ (pairs : List (List Char × String)) (offset : Nat), offset ≤ t.length →
      t.drop offset = pairs.flatMap (fun p => p.1) →
      buildTokens t offset pairs = exactTokens offset pairs := by
  intro pairs
  induction pairs with
  | nil => intro offset _ _; rfl
  | cons p rest ih =>
    obtain ⟨w, tg⟩ := p
    intro offset hoff hd
    rw [List.flatMap_cons] at hd
    obtain ⟨htake, hdrop, hlen⟩ := drop_append_facts hoff hd
    rw [buildTokens, exactTokens, strFind_at_start t w offset hoff htake]
    simp only [Option.getD_some]
    rw [ih (offset + w.length) hlen hdrop]

theorem exactTokens_head_begin :
    ∀ (pairs : List (List Char × String)) (offset : Nat) (tok : PosToken),
      (exactTokens offset pairs).head? = some tok → tok.begin = offset := by
  intro pairs offset tok h
  match pairs with
  | [] => exact Option.noConfusion h
  | (w, tg) :: rest =>
    rw [exactTokens, List.head?_cons] at h
    cases Option.some.inj h
    rfl

theorem exactTokens_window (t : List Char) :
    ∀ (pairs : List (List Char × String)) (offset : Nat), offset ≤ t.length →
      t.drop offset = pairs.flatMap (fun p => p.1) →
      ∀ (i k : Nat) (t0 tl : PosToken) (win : List PosToken),
        win = ((exactTokens offset pairs).drop i).take k →
        win.head? = some t0 → win.getLast? = some tl →
        t0.begin ≤ tl.endp ∧ tl.endp ≤ t.length ∧
        pySlice t t0.begin tl.endp = win.flatMap (fun tok => tok.word) := by
  intro pairs
  induction pairs with
  | nil =>
    intro offset _ _ i k t0 tl win hwin hh _
    rw [exactTokens] at hwin
    simp at hwin
    rw [hwin] at hh
    exact Option.noConfusion hh
  | cons p rest ih =>
    obtain ⟨w, tg⟩ := p
    intro offset hoff hd i k t0 tl win hwin hh hl
    rw [List.flatMap_cons] at hd
    obtain ⟨htake, hdrop, hlen⟩ := drop_append_facts hoff hd
    have hsplitdrop : t.drop offset = w ++ t.drop (offset + w.length) := by
      rw [hdrop]; exact hd
    match i with
    | Nat.succ i' =>
      rw [exactTokens] at hwin
      rw [List.drop_succ_cons] at hwin
      exact ih (offset + w.length) hlen hdrop i' k t0 tl win hwin hh hl
    | 0 =>
      rw [exactTokens, List.drop_zero] at hwin
      match k with
      | 0 =>
        simp at hwin
        rw [hwin] at hh
        exact Option.noConfusion hh
      | Nat.succ k' =>
        rw [List.take_succ_cons] at hwin
        subst hwin
        rw [List.head?_cons] at hh
        cases Option.some.inj hh
        match htk : (exactTokens (offset + w.length) rest).take k' with
        | [] =>
          rw [htk, List.getLast?_singleton] at hl
          cases Option.some.inj hl
          refine ⟨by simp, by simpa using hlen, ?_⟩
          simp only [List.flatMap_cons, List.flatMap_nil, List.append_nil]
          exact pySlice_of_take htake
        | x :: xs =>
          rw [htk, List.getLast?_cons_cons] at hl
          have hwin' : x :: xs = ((exactTokens (offset + w.length) rest).drop 0).take k' := by
            rw [List.drop_zero, htk]
          obtain ⟨g1, g2, g3⟩ :=
            ih (offset + w.length) hlen hdrop 0 k' x tl (x :: xs) hwin'
              List.head?_cons hl
          have hx : x.begin = offset + w.length := by
            apply exactTokens_head_begin rest (offset + w.length) x
            match hrest : exactTokens (offset + w.length) rest with
            | [] => rw [hrest] at htk; simp at htk
            | y :: ys =>
              rw [hrest] at htk
              have := congrArg List.head? htk
              rw [List.head?_take] at this
              match k', this with
              | k'' + 1, this =>
                simpa using this
          rw [hx] at g1 g3
          refine ⟨?_, g2, ?_⟩
          · show offset ≤ tl.endp
            omega
          · show pySlice t offset tl.endp =
              ({ word := w, tag := tg, begin := offset, endp := offset + w.length } ::
                x :: xs).flatMap fun tok => tok.word
            rw [pySlice_split hsplitdrop (by omega), g3]
            simp [List.flatMap_cons]

theorem run_pos_checks_bounds (f : List Char → List (List Char × String))
    (rules : List PosRule) (t : List Char)
    (hpart : (f t).flatMap (fun p => p.1) = t) :
    ∀ iss ∈ run_pos_checks (some f) rules t,
      iss.begin ≤ iss.endp ∧ iss.endp ≤ t.length ∧
      iss.hit_text = pySlice t iss.begin iss.endp ∧ iss.type = "pos" := by
  intro iss hiss
  rw [run_pos_checks] at hiss
  by_cases ht : t = []
  · rw [if_pos ht] at hiss; simp at hiss
  · rw [if_neg ht] at hiss
    simp only [] at hiss
    have htok : buildTokens t 0 (f t) = exactTokens 0 (f t) :=
      buildTokens_eq_exact t (f t) 0 (Nat.zero_le _)
        (by rw [List.drop_zero]; exact hpart.symm)
    rcases List.mem_flatMap.mp hiss with ⟨r, _, hin⟩
    rcases List.mem_map.mp hin with ⟨m, hm, rfl⟩
    rw [PosRule.matchList] at hm
    by_cases h0 : r.sequence.length = 0
    · rw [if_pos h0] at hm; simp at hm
    · rw [if_neg h0] at hm
      by_cases h1 : (buildTokens t 0 (f t)).length < r.sequence.length
      · rw [if_pos h1] at hm; simp at hm
      · rw [if_neg h1] at hm
        rcases List.mem_filterMap.mp hm with ⟨i, _, hf⟩
        simp only [] at hf
        split at hf
        · rename_i t0 tl hh hl
          split at hf
          · cases Option.some.inj hf
            have hwin : List.take r.sequence.length (List.drop i (buildTokens t 0 (f t))) =
                ((exactTokens 0 (f t)).drop i).take r.sequence.length := by rw [htok]
            obtain ⟨g1, g2, g3⟩ :=
              exactTokens_window t (f t) 0 (Nat.zero_le _)
                (by rw [List.drop_zero]; exact hpart.symm) i r.sequence.length t0 tl
                (List.take r.sequence.length (List.drop i (buildTokens t 0 (f t))))
                hwin hh hl
            exact ⟨g1, g2, by simpa using g3.symm, rfl⟩
          · exact Option.noConfusion hf
        · exact Option.noConfusion hf

end PosPatterns

namespace Patterns

theorem run_pattern_checks_types (rules : List RegexRule) (t : List Char) :
    ∀ iss ∈ run_pattern_checks rules t, iss.type = "pattern" := by
  intro iss hiss
  rcases List.mem_flatMap.mp hiss with ⟨r, _, hin⟩
  rcases List.mem_map.mp hin with ⟨m, _, rfl⟩
  rfl

end Patterns

namespace PosPatterns

theorem matchList_types (r : PosRule) (tokens : List PosToken) :
    ∀ m ∈ r.matchList tokens, m.type = "pos" := by
  intro m hm
  rw [PosRule.matchList] at hm
  by_cases h0 : r.sequence.length = 0
  · rw [if_pos h0] at hm; simp at hm
  · rw [if_neg h0] at hm
    by_cases h1 : tokens.length < r.sequence.length
    · rw [if_pos h1] at hm; simp at hm
    · rw [if_neg h1] at hm
      rcases List.mem_filterMap.mp hm with ⟨i, _, hf⟩
      simp only [] at hf
      split at hf
      · split at hf
        · cases Option.some.inj hf; rfl
        · exact Option.noConfusion hf
      · exact Option.noConfusion hf

theorem run_pos_checks_types (tok : Option (List Char → List (List Char × String)))
    (rules : List PosRule) (t : List Char) :
    ∀ iss ∈ run_pos_checks tok rules t, iss.type = "pos" := by
  intro iss hiss
  cases tok with
  | none => simp [run_pos_checks] at hiss
  | some f =>
    rw [run_pos_checks] at hiss
    by_cases ht : t = []
    · rw [if_pos ht] at hiss; simp at hiss
    · rw [if_neg ht] at hiss
      simp only [] at hiss
      rcases List.mem_flatMap.mp hiss with ⟨r, _, hin⟩
      rcases List.mem_map.mp hin with ⟨m, hm, rfl⟩
      exact matchList_types r _ m hm

end PosPatterns

namespace App

theorem api_check_issues (cfg : Config) (tr : List Char)
    (modes : Option (List (String × Bool))) :
    (api_check cfg tr modes).issues =
      sortIssues (engineIssues cfg (pyStrip tr) (resolveModes modes)) := rfl

/-- Every issue any engine can contribute carries one of the six wire
types counted by the summary. -/
theorem engineIssues_types (cfg : Config) (text : List Char)
    (m : List (String × Bool)) :
    ∀ iss ∈ engineIssues cfg text m,
      iss.type = "rule" ∨ iss.type = "lex" ∨ iss.type = "pattern" ∨
      iss.type = "pos" ∨ iss.type = "csc" ∨ iss.type = "term" := by
  intro iss hiss
  simp only [engineIssues, List.mem_append] at hiss
  rcases hiss with ((((h | h) | h) | h) | h) | h
  · split at h
    · exact Or.inl (Rules.run_rule_checks_bounds text iss h).2.2.2
    · simp at h
  · split at h
    · exact Or.inr (Or.inl (Lexicon.run_lex_checks_bounds cfg.conf cfg.valid text iss h).2.2.2)
    · simp at h
  · split at h
    · exact Or.inr (Or.inr (Or.inl (Patterns.run_pattern_checks_types cfg.patRules text iss h)))
    · simp at h
  · split at h
    · exact Or.inr (Or.inr (Or.inr (Or.inl
        (PosPatterns.run_pos_checks_types cfg.tokenize cfg.posRules text iss h))))
    · simp at h
  · split at h
    · split at h
      · simp at h
      · exact Or.inr (Or.inr (Or.inr (Or.inr (Or.inl
          (Csc.run_csc_bounds text _ iss h).2.2.2))))
    · simp at h
  · exact Or.inr (Or.inr (Or.inr (Or.inr (Or.inr
      (Terms.run_term_checks_bounds cfg.terms text iss h).2.2.2))))

theorem typeSum (l : List Issue)
    (h : ∀ i ∈ l, i.type = "rule" ∨ i.type = "lex" ∨ i.type = "pattern" ∨
      i.type = "pos" ∨ i.type = "csc" ∨ i.type = "term") :
    (l.countP fun i => i.type = "rule") + (l.countP fun i => i.type = "lex") +
    (l.countP fun i => i.type = "pattern") + (l.countP fun i => i.type = "pos") +
    (l.countP fun i => i.type = "csc") + (l.countP fun i => i.type = "term") =
    l.length := by
  induction l with
  | nil => simp
  | cons x l ih =>
    have hx := h x (List.mem_cons_self x l)
    have ihl := ih fun i hi => h i (List.mem_cons_of_mem x hi)
    rcases hx with hx | hx | hx | hx | hx | hx <;>
      simp only [List.countP_cons, List.length_cons, hx] <;> simp <;> omega

end App

/-- Claim C8: for every request, `summary.count` equals the length of
the returned issue list, and the six `summary.by_type` counters sum to
`summary.count`. -/
theorem C8_summary_consistent (cfg : App.Config) (textRaw : List Char)
    (modes : Option (List (String × Bool))) :
    (App.api_check cfg textRaw modes).summary.count =
      (App.api_check cfg textRaw modes).issues.length ∧
    (App.api_check cfg textRaw modes).summary.byRule +
      (App.api_check cfg textRaw modes).summary.byLex +
      (App.api_check cfg textRaw modes).summary.byPattern +
      (App.api_check cfg textRaw modes).summary.byPos +
      (App.api_check cfg textRaw modes).summary.byCsc +
      (App.api_check cfg textRaw modes).summary.byTerm =
      (App.api_check cfg textRaw modes).summary.count := by
  constructor
  · rfl
  · show (List.countP _ _) + (List.countP _ _) + (List.countP _ _) +
      (List.countP _ _) + (List.countP _ _) + (List.countP _ _) = _
    apply App.typeSum
    intro i hi
    exact App.engineIssues_types cfg (App.pyStrip textRaw) (App.resolveModes modes) i
      (App.mem_sortIssues.mp hi)

/-- Claim C7: the term engine runs on every request regardless of the
per-request mode flags: every issue it produces on the analysed
(stripped) text is in the response's issue list. -/
theorem C7_term_engine_always_runs (cfg : App.Config) (textRaw : List Char)
    (modes : Option (List (String × Bool))) (iss : Issue)
    (h : iss ∈ Terms.run_term_checks cfg.terms (App.pyStrip textRaw)) :
    iss ∈ (App.api_check cfg textRaw modes).issues := by
  rw [App.api_check_issues]
  apply App.mem_sortIssues.mpr
  simp only [App.engineIssues, List.mem_append]
  tauto

namespace App

theorem pyStrip_head_not_space (t : List Char) :
    ∀ y, (pyStrip t).head? = some y → isPySpace y = false := by
  intro y hy
  rw [pyStrip, List.head?_reverse] at hy
  obtain ⟨u, hu⟩ := List.dropWhile_suffix (l := (List.dropWhile isPySpace t).reverse) isPySpace
  have hgl : ((List.dropWhile isPySpace t).reverse).getLast? = some y := by
    rw [← hu, List.getLast?_append, hy]
    rfl
  rw [List.getLast?_reverse] at hgl
  have := List.head?_dropWhile_not isPySpace t
  rw [hgl] at this
  exact this

theorem pyStrip_idem (t : List Char) : pyStrip (pyStrip t) = pyStrip t := by
  have hkey : List.dropWhile isPySpace (pyStrip t) = pyStrip t := by
    cases hcr : pyStrip t with
    | nil => rfl
    | cons y ys =>
      have hy : isPySpace y = false := by
        apply pyStrip_head_not_space t
        rw [hcr]
        rfl
      rw [List.dropWhile_cons, hy]
      simp
  have h2 : List.dropWhile isPySpace (pyStrip t).reverse = (pyStrip t).reverse := by
    rw [pyStrip, List.reverse_reverse]
    exact List.dropWhile_idempotent _ _
  calc pyStrip (pyStrip t)
      = ((List.dropWhile isPySpace (pyStrip t)).reverse.dropWhile isPySpace).reverse := rfl
    _ = ((pyStrip t).reverse.dropWhile isPySpace).reverse := by rw [hkey]
    _ = ((pyStrip t).reverse).reverse := by rw [h2]
    _ = pyStrip t := List.reverse_reverse _

theorem pyStrip_all_space {t : List Char} (h : t.all isPySpace) : pyStrip t = [] := by
  rw [pyStrip]
  have h1 : List.dropWhile isPySpace t = [] :=
    List.dropWhile_eq_nil_iff.mpr fun x hx => List.all_eq_true.mp h x hx
  rw [h1]
  rfl

/-- With an empty analysed text, every engine contributes nothing —
except the pattern engine, which has no empty-text guard and depends on
whether some configured regex matches the empty string. -/
theorem engineIssues_nil (cfg : Config) (m : List (String × Bool))
    (hpat : ∀ r ∈ cfg.patRules, r.finditer [] = []) :
    engineIssues cfg [] m = [] := by
  rw [engineIssues]
  have h3 : Patterns.run_pattern_checks cfg.patRules [] = [] := by
    rw [Patterns.run_pattern_checks]
    rw [List.flatMap_eq_nil_iff]
    intro r hr
    rw [Patterns.RegexRule.run, hpat r hr]
    rfl
  have h4 : PosPatterns.run_pos_checks cfg.tokenize cfg.posRules [] = [] := by
    cases htok : cfg.tokenize with
    | none => rfl
    | some f => rw [PosPatterns.run_pos_checks]; simp
  have h5 : (match cfg.cscModel with
      | none => []
      | some correct => Csc.run_csc [] (correct [])) = ([] : List Issue) := by
    cases hm : cfg.cscModel with
    | none => rfl
    | some f => rfl
  rw [h3, h4, h5]
  have h1 : Rules.run_rule_checks [] = [] := rfl
  have h2 : Lexicon.run_lex_checks cfg.conf cfg.valid [] = [] := rfl
  have h6 : Terms.run_term_checks cfg.terms [] = [] := rfl
  rw [h1, h2, h6]
  simp

end App

/-- Claim C10: when `modes` is absent/null or an empty object the
defaults apply (rule, lex, pat, pos enabled; csc disabled); a non-empty
`modes` object replaces the defaults wholesale, and any engine key
omitted from it is treated as disabled. -/
theorem C10_modes_resolution :
    App.resolveModes none = App.defaultModes ∧
    App.resolveModes (some []) = App.defaultModes ∧
    (∀ m : List (String × Bool), m ≠ [] → App.resolveModes (some m) = m) ∧
    (∀ (m : List (String × Bool)) (k : String), m.lookup k = none →
      App.modeOn m k = false) ∧
    App.modeOn App.defaultModes "rule" = true ∧
    App.modeOn App.defaultModes "lex" = true ∧
    App.modeOn App.defaultModes "pat" = true ∧
    App.modeOn App.defaultModes "pos" = true ∧
    App.modeOn App.defaultModes "csc" = false ∧
    (∀ (cfg : App.Config) (textRaw : List Char),
      App.api_check cfg textRaw none = App.api_check cfg textRaw (some [])) := by
  refine ⟨rfl, rfl, ?_, ?_, by decide, by decide, by decide, by decide, by decide, ?_⟩
  · intro m hm
    rw [App.resolveModes, if_neg hm]
  · intro m k h
    rw [App.modeOn, h]
    rfl
  · intro cfg textRaw
    rfl

/-- Witness for C10 at concrete inputs. -/
theorem C10_modes_resolution_witness :
    App.resolveModes (some [("csc", true)]) = [("csc", true)] ∧
    App.modeOn [("csc", true)] "rule" = false :=
  ⟨C10_modes_resolution.2.2.1 [("csc", true)] (by decide),
   C10_modes_resolution.2.2.2.1 [("csc", true)] "rule" (by decide)⟩

/-- Claim C9 fails as stated: a whitespace-only submission can yield an
issue, because the pattern engine has no empty-text guard — a
configured rule whose regex matches the empty string (e.g. `a*`, whose
`finditer` on `""` yields one empty match at 0) fires on the stripped
empty text. -/
theorem C9_counterexample :
    (cs " ").all isPySpace = true ∧
    (App.api_check
      { conf := fun _ => [], valid := [], posRules := [], tokenize := none,
        cscModel := none, terms := [],
        patRules := [⟨"r0", "", [], 0.7, fun _ => [(0, 0)]⟩] }
      (cs " ") none).issues.length ≠ 0 := by decide

/-- Claim C9 (amended): the check strips the submitted text before any
engine runs (so the response is that of the stripped text, and offsets
refer to it); a whitespace-only submission yields zero issues provided
no configured pattern regex matches the empty string. -/
theorem C9_strip_semantics (cfg : App.Config) (textRaw : List Char)
    (modes : Option (List (String × Bool))) :
    App.api_check cfg textRaw modes = App.api_check cfg (App.pyStrip textRaw) modes ∧
    (textRaw.all isPySpace → (∀ r ∈ cfg.patRules, r.finditer [] = []) →
      (App.api_check cfg textRaw modes).issues = []) := by
  constructor
  · simp only [App.api_check, App.pyStrip_idem]
  · intro hws hpat
    rw [App.api_check_issues, App.pyStrip_all_space hws, App.engineIssues_nil cfg _ hpat]
    rfl

/-- Witness for C9 at concrete inputs. -/
theorem C9_strip_semantics_witness :
    (App.api_check
      { conf := fun _ => [], valid := [], patRules := [], posRules := [],
        tokenize := none, cscModel := none, terms := [] }
      (cs "  ") none).issues = [] :=
  (C9_strip_semantics _ (cs "  ") none).2 (by decide) (by decide)

/-- Claim C3 fails as stated: the spelling-model filter never checks
`end ≤ len(text)`, so an out-of-range pair such as `(0, 7)` on a
2-character text is surfaced rather than discarded. -/
theorem C3_counterexample :
    ((Csc.run_csc (cs "你好") [⟨cs "你好", cs "您好", 0, 7⟩]).map
      fun i => (i.begin, i.endp)) = [(0, 7)] ∧
    ¬ (7 : Nat) ≤ (cs "你好").length := by decide

/-- A `filterMap` whose function is an if-then-none collapses to
filter-then-map. -/
theorem filterMap_ite_none {α β : Type} (p : α → Prop) [DecidablePred p]
    (g : α → β) (l : List α) :
    l.filterMap (fun d => if p d then none else some (g d)) =
      (l.filter fun d => !(decide (p d))).map g := by
  induction l with
  | nil => rfl
  | cons x l ih =>
    rw [List.filterMap_cons, List.filter_cons]
    by_cases hx : p x
    · simp [hx, ih]
    · simp [hx, ih]

/-- Claim C3 (amended): a model detail pair is discarded exactly when
`begin < 0` or `end ≤ begin` or `begin ≥ len(text)`; every surfaced
spelling-model issue therefore has `0 ≤ begin < len(text)` and
`begin < end`, but nothing bounds `end` by `len(text)`. -/
theorem C3_offset_filter (t : List Char) (details : List Csc.CscDetail) :
    (Csc.run_csc t details).length =
      (details.filter fun d => !(decide (d.begin < 0 ∨ d.endp ≤ d.begin ∨
        (t.length : Int) ≤ d.begin))).length ∧
    ∀ i ∈ Csc.run_csc t details, i.begin < t.length ∧ i.begin < i.endp := by
  constructor
  · rw [Csc.run_csc]
    by_cases ht : t = []
    · rw [if_pos ht]
      subst ht
      have hnil : (details.filter fun d => !(decide (d.begin < 0 ∨ d.endp ≤ d.begin ∨
          (([] : List Char).length : Int) ≤ d.begin))) = [] := by
        apply List.filter_eq_nil_iff.mpr
        intro d _
        simp only [Bool.not_eq_true', decide_eq_false_iff_not]
        intro hcon
        push_neg at hcon
        obtain ⟨h1, _, h3⟩ := hcon
        simp at h3
        omega
      rw [hnil]
      rfl
    · rw [if_neg ht, filterMap_ite_none, List.length_map]
  · intro i hi
    have := Csc.run_csc_bounds t details i hi
    exact ⟨this.1, this.2.1⟩

/-- Claim C1 fails as stated: the spelling-model engine can surface an
issue whose `end` exceeds `len(text)` (its range filter never checks
the upper bound of `end`). -/
theorem C1_counterexample :
    ((Csc.run_csc (cs "你") [⟨cs "你", cs "您", 0, 5⟩]).map
      fun i => (i.begin, i.endp)) = [(0, 5)] ∧
    ¬ (5 : Nat) ≤ (cs "你").length := by decide

/-- Claim C1 (amended): the span invariant `0 ≤ begin ≤ end ≤ len(text)`
with `hit_text = text[begin:end]` holds for the structural, lexicon and
term engines unconditionally; for the pattern engine whenever the
compiled regexes report spans inside the text (Python `re`'s
guarantee); and for the pos engine whenever the tokenizer's surface
forms concatenate to the text (a true segmentation).  The
spelling-model engine guarantees only `0 ≤ begin < len(text)`,
`begin < end`, and `hit_text` equal to the clamping slice — `end` can
exceed `len(text)`. -/
theorem C1_span_invariant :
    (∀ t : List Char, ∀ iss ∈ Rules.run_rule_checks t,
      iss.begin ≤ iss.endp ∧ iss.endp ≤ t.length ∧
      iss.hit_text = pySlice t iss.begin iss.endp) ∧
    (∀ (conf : Char → List Char) (valid : List (List Char)) (t : List Char),
      ∀ iss ∈ Lexicon.run_lex_checks conf valid t,
      iss.begin ≤ iss.endp ∧ iss.endp ≤ t.length ∧
      iss.hit_text = pySlice t iss.begin iss.endp) ∧
    (∀ (terms : List Terms.TermEntry) (t : List Char),
      ∀ iss ∈ Terms.run_term_checks terms t,
      iss.begin ≤ iss.endp ∧ iss.endp ≤ t.length ∧
      iss.hit_text = pySlice t iss.begin iss.endp) ∧
    (∀ (rules : List Patterns.RegexRule) (t : List Char),
      (∀ r ∈ rules, ∀ m ∈ r.finditer t, m.1 ≤ m.2 ∧ m.2 ≤ t.length) →
      ∀ iss ∈ Patterns.run_pattern_checks rules t,
      iss.begin ≤ iss.endp ∧ iss.endp ≤ t.length ∧
      iss.hit_text = pySlice t iss.begin iss.endp) ∧
    (∀ (f : List Char → List (List Char × String))
      (rules : List PosPatterns.PosRule) (t : List Char),
      (f t).flatMap (fun p => p.1) = t →
      ∀ iss ∈ PosPatterns.run_pos_checks (some f) rules t,
      iss.begin ≤ iss.endp ∧ iss.endp ≤ t.length ∧
      iss.hit_text = pySlice t iss.begin iss.endp) ∧
    (∀ (t : List Char) (details : List Csc.CscDetail),
      ∀ iss ∈ Csc.run_csc t details,
      iss.begin < t.length ∧ iss.begin < iss.endp ∧
      iss.hit_text = pySlice t iss.begin iss.endp) := by
  refine ⟨?_, ?_, ?_, ?_, ?_, ?_⟩
  · intro t iss h
    obtain ⟨a, b, c, _⟩ := Rules.run_rule_checks_bounds t iss h
    exact ⟨a, b, c⟩
  · intro conf valid t iss h
    obtain ⟨a, b, c, _⟩ := Lexicon.run_lex_checks_bounds conf valid t iss h
    exact ⟨a, b, c⟩
  · intro terms t iss h
    obtain ⟨a, b, c, _⟩ := Terms.run_term_checks_bounds terms t iss h
    exact ⟨a, b, c⟩
  · intro rules t hs iss h
    obtain ⟨a, b, c, _⟩ := Patterns.run_pattern_checks_bounds rules t hs iss h
    exact ⟨a, b, c⟩
  · intro f rules t hp iss h
    obtain ⟨a, b, c, _⟩ := PosPatterns.run_pos_checks_bounds f rules t hp iss h
    exact ⟨a, b, c⟩
  · intro t details iss h
    obtain ⟨a, b, c, _⟩ := Csc.run_csc_bounds t details iss h
    exact ⟨a, b, c⟩

/-- Witness for C1 (amended) at concrete inputs, one per engine. -/
theorem C1_span_invariant_witness :
    (let iR : Issue :=
      { type := "rule", rule_id := "repeat_char", begin := 1, endp := 3,
        hit_text := cs "好好", suggestions := [cs "删除重复字或合并为合适词"],
        evidence := "连续重复汉字", confidence := 0.7, context_left := cs "你",
        context_right := [] };
     iR.begin ≤ iR.endp ∧ iR.endp ≤ (cs "你好好").length ∧
       iR.hit_text = pySlice (cs "你好好") iR.begin iR.endp) ∧
    (let iL : Issue :=
      { type := "lex", rule_id := "confusion_char", begin := 1, endp := 2,
        hit_text := cs "好", suggestions := [cs "号"], evidence := "可能写错字",
        confidence := 0.65, context_left := cs "信", context_right := [] };
     iL.begin ≤ iL.endp ∧ iL.endp ≤ (cs "信好").length ∧
       iL.hit_text = pySlice (cs "信好") iL.begin iL.endp) ∧
    (let iT : Issue :=
      { type := "term", rule_id := "invalid_term", begin := 0, endp := 1,
        hit_text := cs "你", suggestions := [], evidence := "th", confidence := 0.8,
        context_left := [], context_right := cs "好" };
     iT.begin ≤ iT.endp ∧ iT.endp ≤ (cs "你好").length ∧
       iT.hit_text = pySlice (cs "你好") iT.begin iT.endp) ∧
    (let iP : Issue :=
      { type := "pattern", rule_id := "r1", begin := 0, endp := 1,
        hit_text := cs "你", suggestions := [], evidence := "h", confidence := 0.7,
        context_left := [], context_right := [] };
     iP.begin ≤ iP.endp ∧ iP.endp ≤ (cs "你").length ∧
       iP.hit_text = pySlice (cs "你") iP.begin iP.endp) ∧
    (let iS : Issue :=
      { type := "pos", rule_id := "pr", begin := 0, endp := 2,
        hit_text := cs "你好", suggestions := [], evidence := "ph", confidence := 0.6,
        context_left := [], context_right := [] };
     iS.begin ≤ iS.endp ∧ iS.endp ≤ (cs "你好").length ∧
       iS.hit_text = pySlice (cs "你好") iS.begin iS.endp) ∧
    (let iC : Issue :=
      { type := "csc", rule_id := "csc", begin := 0, endp := 1,
        hit_text := cs "你", suggestions := [cs "您"], evidence := "拼写纠错模型建议",
        confidence := 0.9, context_left := [], context_right := cs "好" };
     iC.begin < (cs "你好").length ∧ iC.begin < iC.endp ∧
       iC.hit_text = pySlice (cs "你好") iC.begin iC.endp) :=
  ⟨C1_span_invariant.1 (cs "你好好") _ (List.Mem.head _),
   C1_span_invariant.2.1 Lexicon.defaultConfusion Lexicon.defaultValidWords (cs "信好") _
     (List.Mem.head _),
   C1_span_invariant.2.2.1 [⟨cs "你", [], "th", 0.8⟩] (cs "你好") _ (List.Mem.head _),
   C1_span_invariant.2.2.2.1 [⟨"r1", "h", [], 0.7, fun _ => [(0, 1)]⟩] (cs "你")
     (by decide) _ (List.Mem.head _),
   C1_span_invariant.2.2.2.2.1 (fun _ => [(cs "你好", "r")])
     [⟨"pr", [⟨none, none, none⟩], "ph", [], 0.6⟩] (cs "你好") (by decide) _
     (List.Mem.head _),
   C1_span_invariant.2.2.2.2.2 (cs "你好") [⟨cs "你", cs "您", 0, 1⟩] _ (List.Mem.head _)⟩

/-- The tie-break precedence over engine wire types asserted by the
spec: structural, lexicon, pattern, pos, term, spelling-model. -/
def specPrecedence : String → Nat
  | "rule" => 0
  | "lex" => 1
  | "pattern" => 2
  | "pos" => 3
  | "term" => 4
  | "csc" => 5
  | _ => 6

/-- Claim C2 fails as stated: `api_check` invokes the spelling model
before the term engine, so on a tie of `begin` a csc issue precedes a
term issue, contradicting the claimed precedence which puts term before
spelling-model. -/
theorem C2_counterexample :
    ((App.api_check
      { conf := fun _ => [], valid := [], patRules := [], posRules := [],
        tokenize := none, cscModel := some fun _ => [⟨cs "测", cs "侧", 0, 1⟩],
        terms := [⟨cs "测", [], "", 0.8⟩] }
      (cs "测") (some [("csc", true)])).issues.map fun i => (i.type, i.begin)) =
      [("csc", 0), ("term", 0)] ∧
    specPrecedence "term" < specPrecedence "csc" := by decide

/-- Claim C2 (amended): the returned list is sorted by `begin` and the
sort is stable: for every key `b`, the sub-list of issues with
`begin = b` is exactly their sub-list in the engine-invocation-order
concatenation — rule (structural), lex, pattern, pos, csc
(spelling-model), then term. -/
theorem C2_sorted_stable (cfg : App.Config) (textRaw : List Char)
    (modes : Option (List (String × Bool))) :
    List.Sorted App.beginLE (App.api_check cfg textRaw modes).issues ∧
    ∀ b : Nat,
      (App.api_check cfg textRaw modes).issues.filter (fun i => i.begin = b) =
        (App.engineIssues cfg (App.pyStrip textRaw)
          (App.resolveModes modes)).filter (fun i => i.begin = b) := by
  constructor
  · rw [App.api_check_issues]
    exact App.sorted_sortIssues _
  · intro b
    rw [App.api_check_issues]
    exact App.filter_sortIssues b _

/-- Witness for C7 at concrete inputs: with every mode disabled, a
banned-term issue still appears in the response. -/
theorem C7_term_engine_always_runs_witness :
    ({ type := "term", rule_id := "invalid_term", begin := 0, endp := 1,
       hit_text := cs "测", suggestions := [], evidence := "", confidence := 0.8,
       context_left := [], context_right := cs "试" } : Issue) ∈
      (App.api_check
        { conf := fun _ => [], valid := [], patRules := [], posRules := [],
          tokenize := none, cscModel := none, terms := [⟨cs "测", [], "", 0.8⟩] }
        (cs "测试") (some [("rule", false)])).issues :=
  C7_term_engine_always_runs _ _ _ _ (List.Mem.head _)

namespace Rules

/-- Fully balanced bracket/quote text over the nine pairs (the
hypothesis side of the spec's bracket-balance property): the empty
text, a non-bracket character before balanced text, or an
opener-wrapped balanced segment followed by balanced text. -/
inductive Balanced : List Char → Prop
  | nil : Balanced []
  | plain (c : Char) (hc1 : pairsOf c = none) (hc2 : c ∉ closers)
      (u : List Char) : Balanced u → Balanced (c :: u)
  | wrap (o c : Char) (h : pairsOf o = some c) (u v : List Char) :
      Balanced u → Balanced v → Balanced (o :: u ++ c :: v)

/-- A closer (the value side of a pair) is never itself an opener and
is in the closer set. -/
theorem pairsOf_closer {o c : Char} (h : pairsOf o = some c) :
    c ∈ closers ∧ (pairsOf c).isSome = false := by
  rw [pairsOf.eq_def] at h
  split at h <;> first
    | (cases Option.some.inj h; decide)
    | exact Option.noConfusion h

theorem closers_not_opener : ∀ c ∈ closers, (pairsOf c).isSome = false := by decide

theorem bracketAux_push (t : List Char) (i : Nat) (stack : List (Char × Nat))
    (c : Char) (l : List Char) (hc : (pairsOf c).isSome) :
    bracketAux t i stack (c :: l) = bracketAux t (i + 1) ((c, i) :: stack) l := by
  rcases stack with _ | ⟨⟨o, j⟩, st⟩ <;> rw [bracketAux, if_pos hc]

theorem bracketAux_plain (t : List Char) (i : Nat) (stack : List (Char × Nat))
    (c : Char) (l : List Char) (hc1 : pairsOf c = none) (hc2 : c ∉ closers) :
    bracketAux t i stack (c :: l) = bracketAux t (i + 1) stack l := by
  rcases stack with _ | ⟨⟨o, j⟩, st⟩ <;>
    rw [bracketAux, if_neg (by simp [hc1]), if_neg hc2]

theorem bracketAux_pop (t : List Char) (i j : Nat) (stack : List (Char × Nat))
    (o c : Char) (l : List Char) (ho : pairsOf o = some c) :
    bracketAux t i ((o, j) :: stack) (c :: l) = bracketAux t (i + 1) stack l := by
  obtain ⟨hcl, hop⟩ := pairsOf_closer ho
  rw [bracketAux, if_neg (by simp [hop]), if_pos hcl, if_pos ho]

theorem bracketAux_mismatch (t : List Char) (i j : Nat)
    (stack : List (Char × Nat)) (o c : Char) (l : List Char)
    (hcl : c ∈ closers) (hne : ¬ pairsOf o = some c) :
    bracketAux t i ((o, j) :: stack) (c :: l) =
      ((bracketAux t (i + 1) ((o, j) :: stack) l).1,
       make_issue "unpaired_bracket" i (i + 1) t [c] "括号/引号不匹配"
         [cs "检查并匹配对应的左侧符号"] 0.6 ::
       (bracketAux t (i + 1) ((o, j) :: stack) l).2) := by
  rw [bracketAux, if_neg (by simp [closers_not_opener c hcl]), if_pos hcl, if_neg hne]

theorem bracketAux_nil_closer (t : List Char) (i : Nat) (c : Char) (l : List Char)
    (hcl : c ∈ closers) :
    bracketAux t i [] (c :: l) =
      ((bracketAux t (i + 1) [] l).1,
       make_issue "unpaired_bracket" i (i + 1) t [c] "括号/引号不匹配"
         [cs "检查并匹配对应的左侧符号"] 0.6 ::
       (bracketAux t (i + 1) [] l).2) := by
  rw [bracketAux, if_neg (by simp [closers_not_opener c hcl]), if_pos hcl]

/-- Scanning a balanced segment leaves the stack and the issue list
untouched, whatever the surrounding state. -/
theorem bracketAux_balanced (t : List Char) {u : List Char} (hu : Balanced u) :
    ∀ (v : List Char) (i : Nat) (stack : List (Char × Nat)),
      bracketAux t i stack (u ++ v) = bracketAux t (i + u.length) stack v := by
  induction hu with
  | nil => intro v i stack; simp
  | plain c hc1 hc2 u hu ih =>
    intro v i stack
    rw [List.cons_append, bracketAux_plain t i stack c (u ++ v) hc1 hc2, ih]
    congr 1
    simp
    omega
  | wrap o c h u w hu hw ihu ihw =>
    intro v i stack
    have hassoc : (o :: u ++ c :: w) ++ v = o :: (u ++ (c :: (w ++ v))) := by simp
    rw [hassoc, bracketAux_push t i stack o _ (by simp [h]), ihu,
      bracketAux_pop t _ i stack o c _ h, ihw]
    congr 1
    simp
    omega

theorem bracketIssues_balanced (t : List Char) (h : Balanced t) :
    bracketIssues t = [] := by
  rw [bracketIssues]
  have := bracketAux_balanced t h [] 0 []
  rw [List.append_nil] at this
  rw [this]
  rfl

theorem multiSpaceIssues_rid (t : List Char) :
    ∀ iss ∈ multiSpaceIssues t, iss.rule_id = "multi_space" := by
  intro iss hiss
  rcases List.mem_map.mp hiss with ⟨r, _, rfl⟩
  rfl

theorem spaceBeforePunctIssues_rid (t : List Char) :
    ∀ iss ∈ spaceBeforePunctIssues t, iss.rule_id = "space_before_cn_punct" := by
  intro iss hiss
  rcases List.mem_map.mp hiss with ⟨r, _, rfl⟩
  rfl

theorem repeatCharIssues_rid (t : List Char) :
    ∀ iss ∈ repeatCharIssues t, iss.rule_id = "repeat_char" := by
  intro iss hiss
  rcases List.mem_map.mp hiss with ⟨r, _, rfl⟩
  rfl

theorem deIssues_rid (t : List Char) (target : Char) (rid ev : String)
    (sug : List (List Char)) (conf : ℚ) :
    ∀ iss ∈ deIssues t target rid ev sug conf, iss.rule_id = rid := by
  intro iss hiss
  rcases List.mem_map.mp hiss with ⟨j, _, rfl⟩
  rfl

theorem filter_bracket_of_rid (l : List Issue) (rid : String)
    (h : ∀ iss ∈ l, iss.rule_id = rid)
    (hne : (rid == "unpaired_bracket" || rid == "unclosed_bracket") = false) :
    l.filter (fun i => i.rule_id == "unpaired_bracket" ||
      i.rule_id == "unclosed_bracket") = [] := by
  apply List.filter_eq_nil_iff.mpr
  intro iss hm
  rw [h iss hm, hne]
  simp

/-- On balanced text, the whole structural engine emits no bracket
issue of either kind. -/
theorem run_rule_checks_balanced (t : List Char) (h : Balanced t) :
    (run_rule_checks t).filter (fun i => i.rule_id == "unpaired_bracket" ||
      i.rule_id == "unclosed_bracket") = [] := by
  rw [run_rule_checks]
  by_cases ht : t = []
  · rw [if_pos ht]; rfl
  · rw [if_neg ht]
    simp only [List.filter_append]
    rw [filter_bracket_of_rid _ _ (multiSpaceIssues_rid t) (by decide),
      filter_bracket_of_rid _ _ (spaceBeforePunctIssues_rid t) (by decide),
      filter_bracket_of_rid _ _ (repeatCharIssues_rid t) (by decide),
      filter_bracket_of_rid _ _ (deIssues_rid t '的' _ _ _ _) (by decide),
      filter_bracket_of_rid _ _ (deIssues_rid t '地' _ _ _ _) (by decide),
      filter_bracket_of_rid _ _ (deIssues_rid t '得' _ _ _ _) (by decide),
      bracketIssues_balanced t h]
    rfl

theorem bracketIssues_confidence (t : List Char) :
    ∀ iss ∈ bracketIssues t, iss.confidence = 0.6 := by
  intro iss hiss
  have hspec := bracketAux_spec t t 0 [] (by simp) (by intro p hp; simp at hp)
  rw [bracketIssues] at hiss
  rcases List.mem_append.mp hiss with hiss | hiss
  · rcases hspec.2 iss hiss with ⟨k, c, _, rfl⟩
    rfl
  · rcases List.mem_map.mp hiss with ⟨p, _, rfl⟩
    rfl

end Rules

/-- Claim C4: the bracket/quote scan pushes on every opener; a closer
pops exactly when the stack top's expected closer matches, emits one
unpaired issue at the closer's index and leaves the stack untouched
otherwise (also when the stack is empty); leftover openers yield
unclosed issues; both kinds carry confidence 0.6.  Consequently
balanced text yields zero bracket issues, `"（测试"` yields exactly one
unclosed issue at 0 with hit `"（"`, and `"测试）"` exactly one
unpaired issue at the index of `"）"`. -/
theorem C4_bracket_balance :
    (∀ (t : List Char) (i : Nat) (stack : List (Char × Nat)) (c : Char) (l : List Char),
      (Rules.pairsOf c).isSome →
      Rules.bracketAux t i stack (c :: l) =
        Rules.bracketAux t (i + 1) ((c, i) :: stack) l) ∧
    (∀ (t : List Char) (i j : Nat) (stack : List (Char × Nat)) (o c : Char)
      (l : List Char), Rules.pairsOf o = some c →
      Rules.bracketAux t i ((o, j) :: stack) (c :: l) =
        Rules.bracketAux t (i + 1) stack l) ∧
    (∀ (t : List Char) (i j : Nat) (stack : List (Char × Nat)) (o c : Char)
      (l : List Char), c ∈ Rules.closers → ¬ Rules.pairsOf o = some c →
      Rules.bracketAux t i ((o, j) :: stack) (c :: l) =
        ((Rules.bracketAux t (i + 1) ((o, j) :: stack) l).1,
         Rules.make_issue "unpaired_bracket" i (i + 1) t [c] "括号/引号不匹配"
           [cs "检查并匹配对应的左侧符号"] 0.6 ::
         (Rules.bracketAux t (i + 1) ((o, j) :: stack) l).2)) ∧
    (∀ (t : List Char) (i : Nat) (c : Char) (l : List Char), c ∈ Rules.closers →
      Rules.bracketAux t i [] (c :: l) =
        ((Rules.bracketAux t (i + 1) [] l).1,
         Rules.make_issue "unpaired_bracket" i (i + 1) t [c] "括号/引号不匹配"
           [cs "检查并匹配对应的左侧符号"] 0.6 ::
         (Rules.bracketAux t (i + 1) [] l).2)) ∧
    (∀ t : List Char, ∀ iss ∈ Rules.bracketIssues t, iss.confidence = 0.6) ∧
    (∀ t : List Char, Rules.Balanced t →
      (Rules.run_rule_checks t).filter (fun i => i.rule_id == "unpaired_bracket" ||
        i.rule_id == "unclosed_bracket") = []) ∧
    ((Rules.run_rule_checks (cs "（测试")).map fun i => (i.rule_id, i.begin, i.hit_text)) =
      [("unclosed_bracket", 0, cs "（")] ∧
    ((Rules.run_rule_checks (cs "测试）")).map fun i => (i.rule_id, i.begin, i.hit_text)) =
      [("unpaired_bracket", 2, cs "）")] ∧
    ((Rules.run_rule_checks (cs "（【测")).map fun i => (i.rule_id, i.begin, i.hit_text)) =
      [("unclosed_bracket", 0, cs "（"), ("unclosed_bracket", 1, cs "【")] :=
  ⟨Rules.bracketAux_push, Rules.bracketAux_pop, Rules.bracketAux_mismatch,
   Rules.bracketAux_nil_closer, Rules.bracketIssues_confidence,
   Rules.run_rule_checks_balanced, by decide, by decide, by decide⟩

/-- Witness for C4 at concrete inputs: each step shape of the scan, the
confidence, and a balanced text. -/
theorem C4_bracket_balance_witness :
    (Rules.bracketAux (cs "（") 0 [] ['（'] =
      Rules.bracketAux (cs "（") 1 [('（', 0)] []) ∧
    (Rules.bracketAux (cs "（）") 1 [('（', 0)] ['）'] =
      Rules.bracketAux (cs "（）") 2 [] []) ∧
    (Rules.bracketAux (cs "（】") 1 [('（', 0)] ['】'] =
      ((Rules.bracketAux (cs "（】") 2 [('（', 0)] []).1,
       Rules.make_issue "unpaired_bracket" 1 2 (cs "（】") ['】'] "括号/引号不匹配"
         [cs "检查并匹配对应的左侧符号"] 0.6 ::
       (Rules.bracketAux (cs "（】") 2 [('（', 0)] []).2)) ∧
    (Rules.bracketAux (cs "）") 0 [] ['）'] =
      ((Rules.bracketAux (cs "）") 1 [] []).1,
       Rules.make_issue "unpaired_bracket" 0 1 (cs "）") ['）'] "括号/引号不匹配"
         [cs "检查并匹配对应的左侧符号"] 0.6 ::
       (Rules.bracketAux (cs "）") 1 [] []).2)) ∧
    (Rules.make_issue "unpaired_bracket" 0 1 (cs "）") ['）'] "括号/引号不匹配"
      [cs "检查并匹配对应的左侧符号"] 0.6).confidence = 0.6 ∧
    (Rules.run_rule_checks (cs "（测）")).filter
      (fun i => i.rule_id == "unpaired_bracket" || i.rule_id == "unclosed_bracket") = [] :=
  ⟨C4_bracket_balance.1 (cs "（") 0 [] '（' [] (by decide),
   C4_bracket_balance.2.1 (cs "（）") 1 0 [] '（' '）' [] (by decide),
   C4_bracket_balance.2.2.1 (cs "（】") 1 0 [] '（' '】' [] (by decide) (by decide),
   C4_bracket_balance.2.2.2.1 (cs "）") 0 '）' [] (by decide),
   C4_bracket_balance.2.2.2.2.1 (cs "）") _ (List.Mem.head _),
   C4_bracket_balance.2.2.2.2.2.1 (cs "（测）")
     (Rules.Balanced.wrap '（' '）' (by decide) ['测'] []
       (Rules.Balanced.plain '测' (by decide) (by decide) [] Rules.Balanced.nil)
       Rules.Balanced.nil)⟩

namespace Terms

theorem occAt_bound {t T : List Char} {k : Nat} (h : occAt t T k) (hT : T ≠ []) :
    k + T.length ≤ t.length := by
  have hlen := congrArg List.length h
  simp only [List.length_take, List.length_drop] at hlen
  have hpos : 0 < T.length := List.length_pos.mpr hT
  omega

theorem find?_range'_first {p : Nat → Bool} :
    ∀ (n s i : Nat), s ≤ i → i < s + n → p i = true →
      (∀ k, s ≤ k → k < i → p k = false) →
      (List.range' s n).find? p = some i := by
  intro n
  induction n with
  | zero => intro s i h1 h2 _ _; omega
  | succ n ih =>
    intro s i h1 h2 hp hmin
    rw [List.range'_succ, List.find?_cons]
    cases hps : p s with
    | true =>
      have hsi : s = i := by
        by_contra hne
        have := hmin s (le_refl s) (by omega)
        rw [hps] at this
        exact Bool.noConfusion this
      simp [hsi]
    | false =>
      have hsi : s < i := by
        rcases Nat.lt_or_ge s i with h | h
        · exact h
        · have : s = i := by omega
          rw [this, hp] at hps
          exact Bool.noConfusion hps
      simp only []
      exact ih (s + 1) i (by omega) (by omega) hp fun k hk1 hk2 => hmin k (by omega) hk2

theorem strFind_eq_some {t T : List Char} {s i : Nat} (hocc : occAt t T i)
    (hT : T ≠ []) (hsi : s ≤ i) (hmin : ∀ k, s ≤ k → k < i → ¬ occAt t T k) :
    strFind t T s = some i := by
  have hb := occAt_bound hocc hT
  rw [strFind]
  apply find?_range'_first (t.length + 1 - s) s i hsi (by omega)
    (decide_eq_true hocc)
  intro k hk1 hk2
  exact decide_eq_false (hmin k hk1 hk2)

theorem strFind_eq_none {t T : List Char} {s : Nat}
    (h : ∀ k, s ≤ k → ¬ occAt t T k) : strFind t T s = none := by
  rw [strFind]
  apply List.find?_eq_none.mpr
  intro x hx
  rcases List.mem_range'.mp hx with ⟨k, _, rfl⟩
  simp only [decide_eq_true_eq]
  exact h (s + 1 * k) (by omega)

theorem termScanPos_cons {t T : List Char} {s idx : Nat} (hT : 1 ≤ T.length)
    (h : strFind t T s = some idx) :
    termScanPos t T s = idx :: termScanPos t T (idx + T.length) := by
  rw [termScanPos_unfold t T hT s, h]

theorem termScanPos_nil {t T : List Char} {s : Nat} (hT : 1 ≤ T.length)
    (h : strFind t T s = none) : termScanPos t T s = [] := by
  rw [termScanPos_unfold t T hT s, h]

theorem termScanPosF_chain (t T : List Char) :
    ∀ (fuel start : Nat),
      List.Chain' (fun a b => a + T.length ≤ b) (termScanPosF t T start fuel) := by
  intro fuel
  induction fuel with
  | zero => intro start; simp [termScanPosF]
  | succ fuel ih =>
    intro start
    rw [termScanPosF]
    split
    · simp
    · rename_i idx hsf
      rw [List.chain'_cons']
      refine ⟨?_, ih (idx + T.length)⟩
      intro y hy
      exact (termScanPosF_spec t T fuel (idx + T.length) y
        (List.mem_of_mem_head? hy)).1

theorem termScanPos_chain (t T : List Char) (start : Nat) :
    List.Chain' (fun a b => a + T.length ≤ b) (termScanPos t T start) := by
  rw [termScanPos]
  split
  · simp
  · exact termScanPosF_chain t T _ start

/-- The positions the scan reports when the term occurs exactly twice
without overlap. -/
theorem termScanPos_two {t T : List Char} (hT : T ≠ []) {p q : Nat}
    (hpq : p + T.length ≤ q) (hp : occAt t T p) (hq : occAt t T q)
    (honly : ∀ k, occAt t T k → k = p ∨ k = q) :
    termScanPos t T 0 = [p, q] := by
  have hTlen : 1 ≤ T.length := List.length_pos.mpr hT
  have h1 : strFind t T 0 = some p := by
    apply strFind_eq_some hp hT (Nat.zero_le p)
    intro k _ hk hocck
    rcases honly k hocck with rfl | rfl
    · omega
    · omega
  have h2 : strFind t T (p + T.length) = some q := by
    apply strFind_eq_some hq hT hpq
    intro k hk1 hk2 hocck
    rcases honly k hocck with rfl | rfl
    · omega
    · omega
  have h3 : strFind t T (q + T.length) = none := by
    apply strFind_eq_none
    intro k hk hocck
    rcases honly k hocck with rfl | rfl
    · omega
    · omega
  rw [termScanPos_cons hTlen h1, termScanPos_cons hTlen h2, termScanPos_nil hTlen h3]

end Terms

/-- Claim C5: for a single configured banned literal the scan is exact,
case-sensitive and left-to-right with each next search starting at the
previous match's end: every emitted issue is an occurrence of the term
with `rule_id = "invalid_term"` and width `len(term)`, consecutive
issues never overlap, and a term occurring exactly twice without
overlap yields exactly two issues. -/
theorem C5_term_scan :
    (∀ (entry : Terms.TermEntry) (t : List Char),
      (∀ iss ∈ Terms.run_term_checks [entry] t,
        iss.rule_id = "invalid_term" ∧ iss.hit_text = entry.term ∧
        Terms.occAt t entry.term iss.begin ∧
        iss.endp = iss.begin + entry.term.length) ∧
      List.Chain' (fun a b => a.endp ≤ b.begin)
        (Terms.run_term_checks [entry] t)) ∧
    (∀ (entry : Terms.TermEntry) (t : List Char) (p q : Nat), entry.term ≠ [] →
      p + entry.term.length ≤ q →
      Terms.occAt t entry.term p → Terms.occAt t entry.term q →
      (∀ k, Terms.occAt t entry.term k → k = p ∨ k = q) →
      (Terms.run_term_checks [entry] t).map (fun i => (i.rule_id, i.begin, i.endp)) =
        [("invalid_term", p, p + entry.term.length),
         ("invalid_term", q, q + entry.term.length)]) := by
  constructor
  · intro entry t
    constructor
    · intro iss hiss
      obtain ⟨_, _, h3, h4⟩ := Terms.run_term_checks_bounds [entry] t iss hiss
      rw [Terms.run_term_checks] at hiss
      by_cases ht : t = []
      · rw [if_pos ht] at hiss; simp at hiss
      · rw [if_neg ht, if_neg (by simp)] at hiss
        simp only [List.flatMap_cons, List.flatMap_nil, List.append_nil] at hiss
        rcases List.mem_map.mp hiss with ⟨idx, hidx, rfl⟩
        obtain ⟨_, _, hocc⟩ := Terms.termScanPos_spec t entry.term 0 idx hidx
        exact ⟨rfl, rfl, hocc, rfl⟩
    · rw [Terms.run_term_checks]
      by_cases ht : t = []
      · rw [if_pos ht]; simp
      · rw [if_neg ht, if_neg (by simp)]
        simp only [List.flatMap_cons, List.flatMap_nil, List.append_nil]
        rw [List.chain'_map]
        have := Terms.termScanPos_chain t entry.term 0
        apply List.Chain'.imp ?_ this
        intro a b hab
        simpa using hab
  · intro entry t p q hT hpq hp hq honly
    have ht : t ≠ [] := by
      intro ht
      subst ht
      rw [Terms.occAt] at hp
      simp at hp
      exact hT hp
    rw [Terms.run_term_checks, if_neg ht, if_neg (by simp)]
    simp only [List.flatMap_cons, List.flatMap_nil, List.append_nil]
    rw [Terms.termScanPos_two hT hpq hp hq honly]
    rfl

/-- Witness for C5 at concrete inputs: the term `不行` occurs exactly
twice without overlap in `不行吗不行`. -/
theorem C5_term_scan_witness :
    (Terms.run_term_checks [⟨cs "不行", [], "", 0.8⟩] (cs "不行吗不行")).map
      (fun i => (i.rule_id, i.begin, i.endp)) =
      [("invalid_term", 0, 2), ("invalid_term", 3, 5)] :=
  C5_term_scan.2 ⟨cs "不行", [], "", 0.8⟩ (cs "不行吗不行") 0 3 (by decide)
    (by decide) (by decide) (by decide)
    (by
      intro k hk
      have hb := Terms.occAt_bound hk (by decide)
      have hb' : k + 2 ≤ 5 := hb
      have hb2 : k ≤ 3 := by omega
      interval_cases k
      · exact Or.inl rfl
      · exact absurd hk (by decide)
      · exact absurd hk (by decide)
      · exact Or.inr rfl)

theorem pySlice_two {t : List Char} {i : Nat} {a b : Char}
    (ha : t[i]? = some a) (hb : t[i + 1]? = some b) :
    pySlice t i (i + 2) = [a, b] := by
  have hi1 : i + 1 < t.length := by
    by_contra hge
    rw [List.getElem?_eq_none (le_of_not_lt hge)] at hb
    exact Option.noConfusion hb
  have hi : i < t.length := by omega
  have hva : t[i] = a := by
    have := List.getElem?_eq_getElem hi
    rw [this] at ha
    exact Option.some.inj ha
  have hvb : t[i + 1] = b := by
    have := List.getElem?_eq_getElem hi1
    rw [this] at hb
    exact Option.some.inj hb
  rw [pySlice]
  have h2 : i + 2 - i = 2 := by omega
  rw [h2, List.drop_eq_getElem_cons hi, List.drop_eq_getElem_cons hi1, hva, hvb]
  rfl

namespace Lexicon

theorem bigramCands_ne_nil_iff (conf : Char → List Char) (valid : List (List Char))
    (a b : Char) :
    bigramCands conf valid a b ≠ [] ↔
      ((∃ alt ∈ conf a, [alt, b] ∈ valid ∧ [alt, b] ≠ [a, b]) ∨
       (∃ alt ∈ conf b, [a, alt] ∈ valid ∧ [a, alt] ≠ [a, b])) := by
  rw [bigramCands, ne_eq, List.append_eq_nil, not_and_or]
  constructor
  · rintro (h | h)
    · left
      rw [List.filterMap_eq_nil_iff] at h
      push_neg at h
      obtain ⟨alt, hmem, hne⟩ := h
      by_cases h1 : alt = a
      · rw [if_pos h1] at hne
        exact absurd rfl hne
      · by_cases h2 : [alt, b] ≠ [a, b] ∧ [alt, b] ∈ valid
        · exact ⟨alt, hmem, h2.2, h2.1⟩
        · rw [if_neg h1, if_neg h2] at hne
          exact absurd rfl hne
    · right
      rw [List.filterMap_eq_nil_iff] at h
      push_neg at h
      obtain ⟨alt, hmem, hne⟩ := h
      by_cases h1 : alt = b
      · rw [if_pos h1] at hne
        exact absurd rfl hne
      · by_cases h2 : [a, alt] ≠ [a, b] ∧ [a, alt] ∈ valid
        · exact ⟨alt, hmem, h2.2, h2.1⟩
        · rw [if_neg h1, if_neg h2] at hne
          exact absurd rfl hne
  · rintro (⟨alt, hmem, hv, hne⟩ | ⟨alt, hmem, hv, hne⟩)
    · left
      intro hnil
      have := List.filterMap_eq_nil_iff.mp hnil alt hmem
      have h1 : ¬ alt = a := fun he => hne (by rw [he])
      rw [if_neg h1, if_pos ⟨hne, hv⟩] at this
      exact Option.noConfusion this
    · right
      intro hnil
      have := List.filterMap_eq_nil_iff.mp hnil alt hmem
      have h1 : ¬ alt = b := fun he => hne (by rw [he])
      rw [if_neg h1, if_pos ⟨hne, hv⟩] at this
      exact Option.noConfusion this

end Lexicon

/-- Claim C6: the bigram smart-suggestion scan emits an issue for the
window at `i` iff some single-position substitution by a confusion
alternative yields a member of the valid-word set distinct from the
window; when it fires, the suggestions are exactly the deduplicated
sorted candidate list, with confidence 0.72 and the window as hit. -/
theorem C6_bigram_iff (conf : Char → List Char) (valid : List (List Char))
    (t : List Char) (i : Nat) (a b : Char)
    (ha : t[i]? = some a) (hb : t[i + 1]? = some b) :
    ((∃ iss ∈ Lexicon.bigramIssues conf valid t, iss.begin = i) ↔
      ((∃ alt ∈ conf a, [alt, b] ∈ valid ∧ [alt, b] ≠ [a, b]) ∨
       (∃ alt ∈ conf b, [a, alt] ∈ valid ∧ [a, alt] ≠ [a, b]))) ∧
    (∀ iss ∈ Lexicon.bigramIssues conf valid t, iss.begin = i →
      iss.suggestions = Lexicon.sortedDedup (Lexicon.bigramCands conf valid a b) ∧
      iss.confidence = 0.72 ∧ iss.hit_text = [a, b]) := by
  have hi1 : i + 1 < t.length := by
    by_contra hge
    rw [List.getElem?_eq_none (le_of_not_lt hge)] at hb
    exact Option.noConfusion hb
  have hw : pySlice t i (i + 2) = [a, b] := pySlice_two ha hb
  constructor
  · constructor
    · rintro ⟨iss, hmem, hbeg⟩
      rcases List.mem_filterMap.mp hmem with ⟨j, _, hf⟩
      simp only [] at hf
      split at hf
      · rename_i a' b' hw'
        by_cases hc : Lexicon.bigramCands conf valid a' b' = []
        · rw [if_pos hc] at hf
          exact Option.noConfusion hf
        · rw [if_neg hc] at hf
          cases Option.some.inj hf
          have hji : j = i := hbeg
          subst hji
          rw [hw] at hw'
          cases hw'
          exact (Lexicon.bigramCands_ne_nil_iff conf valid a b).mp hc
      · exact Option.noConfusion hf
    · intro hrhs
      have hc : Lexicon.bigramCands conf valid a b ≠ [] :=
        (Lexicon.bigramCands_ne_nil_iff conf valid a b).mpr hrhs
      refine ⟨Lexicon.make_issue "confusion_bigram_suggested" i (i + 2) t [a, b]
        "替换后构成常用二字词"
        (Lexicon.sortedDedup (Lexicon.bigramCands conf valid a b)) 0.72,
        List.mem_filterMap.mpr ⟨i, List.mem_range.mpr (by omega), ?_⟩, rfl⟩
      show (match pySlice t i (i + 2) with
        | [a', b'] =>
          if Lexicon.bigramCands conf valid a' b' = [] then none
          else some (Lexicon.make_issue "confusion_bigram_suggested" i (i + 2) t [a', b']
            "替换后构成常用二字词"
            (Lexicon.sortedDedup (Lexicon.bigramCands conf valid a' b')) 0.72)
        | _ => none) = _
      rw [hw]
      show (if Lexicon.bigramCands conf valid a b = [] then none
        else some (Lexicon.make_issue "confusion_bigram_suggested" i (i + 2) t [a, b]
          "替换后构成常用二字词"
          (Lexicon.sortedDedup (Lexicon.bigramCands conf valid a b)) 0.72)) = _
      rw [if_neg hc]
  · intro iss hmem hbeg
    rcases List.mem_filterMap.mp hmem with ⟨j, _, hf⟩
    simp only [] at hf
    split at hf
    · rename_i a' b' hw'
      by_cases hc : Lexicon.bigramCands conf valid a' b' = []
      · rw [if_pos hc] at hf
        exact Option.noConfusion hf
      · rw [if_neg hc] at hf
        cases Option.some.inj hf
        have hji : j = i := hbeg
        subst hji
        rw [hw] at hw'
        cases hw'
        exact ⟨rfl, rfl, rfl⟩
    · exact Option.noConfusion hf

/-- Witness for C6 at concrete inputs: in `信好` with the built-in
tables, the window at 0 fires with the single suggestion `信号`. -/
theorem C6_bigram_iff_witness :
    (Lexicon.make_issue "confusion_bigram_suggested" 0 2 (cs "信好") (cs "信好")
      "替换后构成常用二字词" [cs "信号"] 0.72).suggestions =
      Lexicon.sortedDedup (Lexicon.bigramCands Lexicon.defaultConfusion
        Lexicon.defaultValidWords '信' '好') ∧
    (Lexicon.make_issue "confusion_bigram_suggested" 0 2 (cs "信好") (cs "信好")
      "替换后构成常用二字词" [cs "信号"] 0.72).confidence = 0.72 ∧
    (Lexicon.make_issue "confusion_bigram_suggested" 0 2 (cs "信好") (cs "信好")
      "替换后构成常用二字词" [cs "信号"] 0.72).hit_text = ['信', '好'] :=
  (C6_bigram_iff Lexicon.defaultConfusion Lexicon.defaultValidWords (cs "信好") 0
    '信' '好' (by decide) (by decide)).2 _ (List.Mem.head _) rfl
